import Mathlib

/-!
Verification development for the poetry-to-uv migration scripts
(`migrate_repo.py`, `migrate_repo_v2.py`).

Python strings are modelled as Lean `String` (a wrapper around `List Char`),
and the handful of Python string primitives the scripts use (`str.replace`,
`str.split`, `str.startswith`, `str.endswith`, slicing, `in`, `int(...)`,
`str(int)`) are given explicit executable models on `List Char`.  Machine
behaviour that the scripts never rely on (non-ASCII digits in `int`,
unicode whitespace classes) is noted at each definition.

Fallible Python code (`try`/`except`, uncaught exceptions) is modelled with
`Option`: `none` is a raised exception.
-/

namespace PoetryMigration

/-! ## Python string primitives, modelled on `List Char` -/

/-- Boolean prefix test on character lists (model of the prefix comparisons
underlying `str.startswith` and the scanning in `str.replace`/`str.split`). -/
def isPre : List Char → List Char → Bool
  | [], _ => true
  | _ :: _, [] => false
  | a :: as, b :: bs => a == b && isPre as bs

/-- Boolean suffix test on character lists (model of `str.endswith`). -/
def isSuf (p l : List Char) : Bool := isPre p.reverse l.reverse

/-- Model of Python's substring containment test `pat in s`. -/
def containsSub (pat : List Char) : List Char → Bool
  | [] => pat.isEmpty
  | c :: rest => isPre pat (c :: rest) || containsSub pat rest

/-- Fuel-driven worker for `replaceAll` (structural recursion on the fuel,
so that concrete inputs evaluate in the kernel; the fuel is always at
least the length of the list, making the `0` case unreachable). -/
def replaceAllAux (pat rep : List Char) : Nat → List Char → List Char
  | _, [] => []
  | 0, l => l
  | fuel + 1, c :: rest =>
    if pat ≠ [] ∧ isPre pat (c :: rest) = true then
      rep ++ replaceAllAux pat rep fuel ((c :: rest).drop pat.length)
    else
      c :: replaceAllAux pat rep fuel rest

/-- Model of Python `s.replace(pat, rep)` for a non-empty `pat`: replace
every non-overlapping occurrence, scanning left to right.  (For `pat = []`
this returns `l` unchanged; the scripts never call `replace` with an empty
pattern.) -/
def replaceAll (pat rep l : List Char) : List Char :=
  replaceAllAux pat rep l.length l

/-- Model of `s.split(pat)[0]` for a non-empty `pat`: the part of `l` before
the first occurrence of `pat` (all of `l` when `pat` does not occur). -/
def splitHead (pat : List Char) : List Char → List Char
  | [] => []
  | c :: rest =>
    if pat ≠ [] ∧ isPre pat (c :: rest) = true then [] else c :: splitHead pat rest

/-- Model of the tail component of `s.split(pat, 1)`: the part of `l` after
the first occurrence of `pat`, or `none` when `pat` does not occur. -/
def afterFirst (pat : List Char) : List Char → Option (List Char)
  | [] => none
  | c :: rest =>
    if pat ≠ [] ∧ isPre pat (c :: rest) = true then some ((c :: rest).drop pat.length)
    else afterFirst pat rest

/-- Fuel-driven worker for `splitAll`. -/
def splitAllAux (pat : List Char) : Nat → List Char → List (List Char)
  | _, [] => [[]]
  | 0, l => [l]
  | fuel + 1, c :: rest =>
    if pat ≠ [] ∧ isPre pat (c :: rest) = true then
      [] :: splitAllAux pat fuel ((c :: rest).drop pat.length)
    else
      match splitAllAux pat fuel rest with
      | [] => [[c]]
      | h :: t => (c :: h) :: t

/-- Model of Python `s.split(pat)` for a non-empty `pat`. -/
def splitAll (pat l : List Char) : List (List Char) :=
  splitAllAux pat l.length l

/-- Model of Python `s[:-n]` for `n ≤ len(s)` (the scripts only use it as
`v[:-2]` guarded by an `endswith` check). -/
def dropRightL (n : Nat) (l : List Char) : List Char := l.take (l.length - n)

/-- Model of Python `str.strip()` (whitespace trimming; Lean's
`Char.isWhitespace` covers the ASCII whitespace the scripts encounter). -/
def pyStrip (l : List Char) : List Char :=
  ((l.dropWhile Char.isWhitespace).reverse.dropWhile Char.isWhitespace).reverse

/-- Digit-sequence check for the tail of a Python integer literal: digits
with single internal underscores allowed. -/
def pyDigitsTail : List Char → Bool
  | [] => true
  | '_' :: [] => false
  | '_' :: d :: rest => d.isDigit && pyDigitsTail rest
  | d :: rest => d.isDigit && pyDigitsTail rest

/-- Non-empty digit sequence with single internal underscores (the body of
a Python decimal integer literal). -/
def pyDigitsOk : List Char → Bool
  | [] => false
  | d :: rest => d.isDigit && pyDigitsTail rest

/-- Decimal value of a digit/underscore sequence. -/
def digitsVal (l : List Char) : Nat :=
  l.foldl (fun n c => if c == '_' then n else n * 10 + (c.toNat - 48)) 0

/-- Model of Python `int(s)` for decimal strings: optional surrounding
whitespace, optional sign, then digits with single internal underscores;
raises (`none`) otherwise.  Non-ASCII digit alphabets are not modelled. -/
def pyIntL (l : List Char) : Option Int :=
  match pyStrip l with
  | '+' :: rest => if pyDigitsOk rest then some (digitsVal rest) else none
  | '-' :: rest => if pyDigitsOk rest then some (-(digitsVal rest : Int)) else none
  | rest => if pyDigitsOk rest then some ((digitsVal rest : Int)) else none

/-- The decimal digit character for `n < 10`. -/
def digitChar (n : Nat) : Char := Char.ofNat (48 + n)

/-- Fuel-driven worker for `natDigits`. -/
def natDigitsAux : Nat → Nat → List Char
  | 0, n => [digitChar n]
  | fuel + 1, n =>
    if n < 10 then [digitChar n]
    else natDigitsAux fuel (n / 10) ++ [digitChar (n % 10)]

/-- Decimal digits of a natural number, most significant first
(model of Python `str(n)` for `n ≥ 0`). -/
def natDigits (n : Nat) : List Char := natDigitsAux n n

/-- Model of Python `str(m)` for an `int` value `m`. -/
def intStrL (m : Int) : List Char :=
  if m < 0 then '-' :: natDigits m.natAbs else natDigits m.toNat

/-! ## String-level wrappers with Python semantics -/

/-- `s.replace(pat, rep)`. -/
def pyReplace (s pat rep : String) : String := ⟨replaceAll pat.data rep.data s.data⟩

/-- `s.startswith(p)`. -/
def pyStartsWith (s p : String) : Bool := isPre p.data s.data

/-- `s.endswith(p)`. -/
def pyEndsWith (s p : String) : Bool := isSuf p.data s.data

/-- `pat in s`. -/
def pyContains (s pat : String) : Bool := containsSub pat.data s.data

/-- `s.split(pat)[0]`. -/
def pySplitHead (s pat : String) : String := ⟨splitHead pat.data s.data⟩

/-- `s[:-n]`. -/
def pyDropRight (s : String) (n : Nat) : String := ⟨dropRightL n s.data⟩

/-- `int(s)`, as an `Option` (a raised `ValueError` is `none`). -/
def pyInt (s : String) : Option Int := pyIntL s.data

/-- `str(m)` for an integer `m`. -/
def intStr (m : Int) : String := ⟨intStrL m⟩

/-! ## Version-constraint normalization (migrate_repo.py, lines 109-145)

`add_upper_bound` calls `int(...)`, which can raise `ValueError`; the
exception is modelled by `Option`, and `validate_version_constraint`'s
`try`/`except (ValueError, IndexError)` is the point where the `none`
is observed. -/

/-- `strip_version_markers`: replace `^`/`~` by `>=`, strip a trailing
`.*`, and cut at the first `.post`. -/
def strip_version_markers (version : String) : String :=
  let v := pyReplace (pyReplace version "^" ">=") "~" ">="
  let v := if pyEndsWith v ".*" then pyDropRight v 2 else v
  if pyContains v ".post" then pySplitHead v ".post" else v

/-- `ensure_patch_version`: append `.0` unless the string already ends in
`.0`. -/
def ensure_patch_version (version : String) : String :=
  if !(pyEndsWith version ".0") then version ++ ".0" else version

/-- `normalize_version_string`. -/
def normalize_version_string (version : String) : String :=
  ensure_patch_version (strip_version_markers version)

/-- `add_upper_bound`: `major = int(version.split(".")[0].replace(">=", "")) + 1`,
then `f"{version}, <{major}.0"`.  `none` models the `ValueError` raised by
`int` on a non-numeric component. -/
def add_upper_bound (version : String) : Option String :=
  (pyIntL (replaceAll ">=".data [] (splitHead ".".data version.data))).map
    (fun major => version ++ ", <" ++ intStr (major + 1) ++ ".0")

/-- `add_upper_bound_if_needed`. -/
def add_upper_bound_if_needed (normalized : String) : Option String :=
  if pyStartsWith normalized ">=" then add_upper_bound normalized
  else some normalized

/-- `validate_version_constraint`: the caught `ValueError` becomes `none`. -/
def validate_version_constraint (version : String) : Option String :=
  add_upper_bound_if_needed (normalize_version_string version)

/-- `normalize_version` (the transformer's copy of the same pipeline;
unlike `validate_version_constraint` it does not catch the `ValueError`,
so `none` here models an uncaught exception). -/
def normalize_version (constraint : String) : Option String :=
  let normalized := normalize_version_string constraint
  if pyStartsWith normalized ">=" then add_upper_bound normalized
  else some normalized

/-- Drop one leading occurrence of `pat` (used by the spec-worded pipeline
below, which parses the major "as the leading integer before the first
dot", i.e. after the single leading `>=` operator). -/
def dropOncePre (pat l : List Char) : List Char :=
  if isPre pat l then l.drop pat.length else l

/-- Modelled from the spec (section 4.1, version-constraint validation):
replace caret/tilde with `>=`, strip a trailing wildcard, strip any
post-release suffix, append `.0` unless the string already ends in `.0`,
and, when the result starts with `>=`, append an exclusive upper bound one
major version above the current major, parsed as the leading integer
before the first dot (after the leading `>=` operator).  A constraint is
invalid (`none`) when that parse raises. -/
def spec_normalize_pipeline (version : String) : Option String :=
  let v := pyReplace (pyReplace version "^" ">=") "~" ">="
  let v := if pyEndsWith v ".*" then pyDropRight v 2 else v
  let v := if pyContains v ".post" then pySplitHead v ".post" else v
  let v := if pyEndsWith v ".0" then v else v ++ ".0"
  if pyStartsWith v ">=" then
    (pyIntL (dropOncePre ">=".data (splitHead ".".data v.data))).map
      (fun major => v ++ ", <" ++ intStr (major + 1) ++ ".0")
  else some v

/-- Dotted join of version components (for stating which strings have the
documented constraint shapes). -/
def joinDots : List String → String
  | [] => ""
  | [c] => c
  | c :: c' :: rest => c ++ "." ++ joinDots (c' :: rest)

/-- A non-empty all-digit string. -/
def isDigitStr (s : String) : Bool := !s.data.isEmpty && s.data.all Char.isDigit

/-- Rendering of a documented constraint shape: an optional range operator,
dotted numeric components, and an optional trailing `.*` wildcard. -/
def renderConstraint (op : String) (comps : List String) (wild : Bool) : String :=
  op ++ joinDots comps ++ (if wild then ".*" else "")

/-- The documented version-constraint shapes: caret, tilde, `>=` or bare,
over dotted numeric components, optionally with a `.*` wildcard. -/
def DocumentedShape (v : String) : Prop :=
  ∃ op comps wild,
    (op = "" ∨ op = "^" ∨ op = "~" ∨ op = ">=") ∧ comps ≠ [] ∧
    (∀ c ∈ comps, isDigitStr c = true) ∧ v = renderConstraint op comps wild

/-! List-level mirrors of the pipeline (the `String` functions above push
their `.data` through these; the bridge equations are proved below). -/

/-- `strip_version_markers`, on the character list. -/
def stripL (l : List Char) : List Char :=
  let s2 := replaceAll ['~'] ['>', '='] (replaceAll ['^'] ['>', '='] l)
  let s3 := if isSuf ['.', '*'] s2 then dropRightL 2 s2 else s2
  if containsSub ['.', 'p', 'o', 's', 't'] s3 then
    splitHead ['.', 'p', 'o', 's', 't'] s3
  else s3

/-- `ensure_patch_version`, on the character list. -/
def ensureL (l : List Char) : List Char :=
  if !(isSuf ['.', '0'] l) then l ++ ['.', '0'] else l

/-- `add_upper_bound`, on the character list. -/
def addUpperL (l : List Char) : Option (List Char) :=
  (pyIntL (replaceAll ['>', '='] [] (splitHead ['.'] l))).map
    (fun major => l ++ [',', ' ', '<'] ++ intStrL (major + 1) ++ ['.', '0'])

/-- `validate_version_constraint`, on the character list. -/
def validateL (l : List Char) : Option (List Char) :=
  let n := ensureL (stripL l)
  if isPre ['>', '='] n then addUpperL n else some n

/-- `spec_normalize_pipeline`, on the character list. -/
def specL (l : List Char) : Option (List Char) :=
  let s := stripL l
  let n := if isSuf ['.', '0'] s then s else s ++ ['.', '0']
  if isPre ['>', '='] n then
    (pyIntL (dropOncePre ['>', '='] (splitHead ['.'] n))).map
      (fun major => n ++ [',', ' ', '<'] ++ intStrL (major + 1) ++ ['.', '0'])
  else some n

/-! ## Invalid-constraint recording (migrate_repo.py, lines 148-166) -/

/-- Minimal model of the parsed pyproject document, holding the two
dependency lists the analyzer reads (`doc["project"]["dependencies"]` and
`doc["dependency-groups"]["dev"]`, each empty when the table is absent,
as produced by the `.get(..., default)` chains in the source). -/
structure TomlDeps where
  project_dependencies : List String
  dev_dependencies : List String

/-- `get_project_deps`. -/
def get_project_deps (doc : TomlDeps) : List String := doc.project_dependencies

/-- `get_dev_deps`. -/
def get_dev_deps (doc : TomlDeps) : List String := doc.dev_dependencies

/-- `extract_dep_version`: `dep.split(" ", 1)`, second component `""` when
there is no space. -/
def extract_dep_version (dep : String) : String × String :=
  (⟨splitHead " ".data dep.data⟩, ⟨(afterFirst " ".data dep.data).getD []⟩)

/-- Python truthiness of an `Optional[str]` (both `None` and `""` are
falsy). -/
def truthy : Option String → Bool
  | none => false
  | some s => !s.data.isEmpty

/-- `is_invalid_version`: `bool(version and not validate_version_constraint(version))`. -/
def is_invalid_version (name version : String) : Bool :=
  let _ := name
  !version.data.isEmpty && !(truthy (validate_version_constraint version))

/-- `validate_version_constraints`. -/
def validate_version_constraints (doc : TomlDeps) : List (String × String) :=
  let all_deps := get_project_deps doc ++ get_dev_deps doc
  (all_deps.map extract_dep_version).filter (fun nv => is_invalid_version nv.1 nv.2)

/-! ## Module-name conflicts (migrate_repo.py, lines 169-194 and
migrate_repo_v2.py, lines 88-103) -/

/-- A scanned source file: `stem` is pathlib's `Path.stem` (base filename,
extension stripped) and `str` is `str(path)`. -/
structure PyFile where
  stem : String
  str : String
deriving DecidableEq

/-- `get_python_files`, applied to the glob results: keep files whose path
does not contain `.venv`. -/
def get_python_files (allFiles : List PyFile) : List PyFile :=
  allFiles.filter (fun p => !(pyContains p.str ".venv"))

/-- Python dict assignment `m[k] = v` (later assignments overwrite earlier
ones; modelled by prepending, with lookup returning the most recent
binding). -/
def dictInsert (m : List (String × String)) (k v : String) : List (String × String) :=
  (k, v) :: m

/-- Python dict lookup `m.get(k)` under the `dictInsert` representation. -/
def dictGet (m : List (String × String)) (k : String) : Option String :=
  (m.find? (fun kv => kv.1 == k)).map (·.2)

/-- `build_module_map`: the dict comprehension `{p.stem: str(p) for p in files}`
(so for repeated stems the LAST file's path wins). -/
def build_module_map (files : List PyFile) : List (String × String) :=
  files.foldl (fun m p => dictInsert m p.stem p.str) []

/-- `find_conflicts`: files whose path differs from the mapped path of
their stem. -/
def find_conflicts (files : List PyFile) (module_map : List (String × String)) :
    List (String × String) :=
  (files.filter (fun p => !(dictGet module_map p.stem == some p.str))).map
    (fun p => (p.stem, p.str))

/-- `check_module_conflicts` (migrate_repo.py). -/
def check_module_conflicts (allFiles : List PyFile) : List (String × String) :=
  let files := get_python_files allFiles
  find_conflicts files (build_module_map files)

/-- Loop body of migrate_repo_v2.py's `check_module_conflicts`: first
occurrence of a stem is recorded in `modules`, every later file with a
recorded stem is appended to `conflicts`. -/
def conflictsLoopV2 :
    List PyFile → List (String × String) → List (String × String) →
    List (String × String)
  | [], conflicts, _ => conflicts
  | p :: rest, conflicts, modules =>
    if pyContains p.str ".venv" then conflictsLoopV2 rest conflicts modules
    else if (dictGet modules p.stem).isSome then
      conflictsLoopV2 rest (conflicts ++ [(p.stem, p.str)]) modules
    else conflictsLoopV2 rest conflicts (dictInsert modules p.stem p.str)

/-- `check_module_conflicts` (migrate_repo_v2.py). -/
def check_module_conflicts_v2 (allFiles : List PyFile) : List (String × String) :=
  conflictsLoopV2 allFiles [] []

/-- Modelled from the spec wording for conflict reporting: the first
occurrence of a base name is canonical, and every subsequent occurrence
produces one entry naming that later file's path. -/
def subsequent_occurrence_conflicts : List PyFile → List String → List (String × String)
  | [], _ => []
  | p :: rest, seen =>
    if p.stem ∈ seen then (p.stem, p.str) :: subsequent_occurrence_conflicts rest seen
    else subsequent_occurrence_conflicts rest (p.stem :: seen)

/-- The entries migrate_repo.py actually produces, in spec terms: a file is
reported exactly when a LATER file shares its stem (the last occurrence is
canonical and every earlier one is reported). -/
def earlier_occurrence_conflicts : List PyFile → List (String × String)
  | [] => []
  | p :: rest =>
    if rest.any (fun q => q.stem == p.stem) then
      (p.stem, p.str) :: earlier_occurrence_conflicts rest
    else earlier_occurrence_conflicts rest

/-- The path of the last file in `files` with the given stem (what the
dict comprehension of `build_module_map` actually maps a stem to). -/
def lastStemMatch (files : List PyFile) (s : String) : Option String :=
  (files.reverse.find? (fun q => q.stem == s)).map (fun q => q.str)

/-! ## Dependency formatting (migrate_repo.py, lines 478-555)

None of the formatting functions in migrate_repo.py contains a print
statement, so each is embedded as a value together with the list of
console lines it emits (always empty here); the repository's own test
suite expects two warning lines from the path-dependency case. -/

/-- A Poetry dependency table; an absent key is `none` (or `[]` for
`extras`, matching `constraint.get("extras", [])`). -/
structure DepTable where
  version : Option String := none
  extras : List String := []
  path : Option String := none
  git : Option String := none
  url : Option String := none
  rev : Option String := none
  tag : Option String := none
  branch : Option String := none
  develop : Option Bool := none
deriving DecidableEq

/-- A dependency constraint: a plain version string or a table. -/
inductive Constraint where
  | str (s : String)
  | table (t : DepTable)
deriving DecidableEq

/-- `has_non_version_keys`: any of `path`/`git`/`url`/`develop` present. -/
def has_non_version_keys (t : DepTable) : Bool :=
  t.path.isSome || t.git.isSome || t.url.isSome || t.develop.isSome

/-- `format_path_dependency`.  `Path(p).resolve()` depends on the file
system and current directory and is passed in as the `resolve` oracle;
`.as_uri()` is modelled for plain absolute POSIX paths as prefixing
`file://`.  The source contains no print call, hence the empty message
list. -/
def format_path_dependency (resolve : String → String) (dep : String) (t : DepTable) :
    String × List String :=
  (dep ++ " @ " ++ ("file://" ++ resolve (t.path.getD "")), [])

/-- Python `a or b` on optional strings (`None` and `""` are falsy). -/
def pyOrStr (a b : Option String) : Option String :=
  match a with
  | some s => if s.data.isEmpty then b else some s
  | none => b

/-- `format_git_dependency`: `constraint.get("rev") or constraint.get("tag")
or constraint.get("branch")`, then `f"{dep} @ git+{git_url}@{ref}"` when a
ref is given.  Note the bare `dep` — the table's extras are not consulted. -/
def format_git_dependency (dep : String) (t : DepTable) : String × List String :=
  let git_url := t.git.getD ""
  let ref := pyOrStr t.rev (pyOrStr t.tag t.branch)
  if truthy ref then (dep ++ " @ git+" ++ git_url ++ "@" ++ ref.getD "", [])
  else (dep ++ " @ git+" ++ git_url, [])

/-- `format_url_dependency`. -/
def format_url_dependency (dep : String) (t : DepTable) : String × List String :=
  (dep ++ " @ " ++ t.url.getD "", [])

/-- `format_non_version_dependency`. -/
def format_non_version_dependency (resolve : String → String) (dep : String)
    (t : DepTable) : String × List String :=
  if t.path.isSome then format_path_dependency resolve dep t
  else if t.git.isSome then format_git_dependency dep t
  else if t.url.isSome then format_url_dependency dep t
  else (dep, [])

/-- `format_dep_with_extras`. -/
def format_dep_with_extras (dep : String) (extras : List String) (version : String) :
    String :=
  dep ++ "[" ++ String.intercalate "," extras ++ "] " ++ version

/-- `format_dict_dependency`; `none` models the uncaught `ValueError` from
`normalize_version` on an unparsable version. -/
def format_dict_dependency (resolve : String → String) (dep : String) (t : DepTable) :
    Option (String × List String) :=
  if has_non_version_keys t then some (format_non_version_dependency resolve dep t)
  else
    match t.version with
    | none => some (dep, [])
    | some v =>
      (normalize_version v).map fun ver =>
        if !t.extras.isEmpty then (format_dep_with_extras dep t.extras ver, [])
        else (dep ++ " " ++ ver, [])

/-- `format_simple_dependency`. -/
def format_simple_dependency (dep : String) (constraint : String) :
    Option (String × List String) :=
  if constraint.data.isEmpty then some (dep, [])
  else (normalize_version constraint).map (fun v => (dep ++ " " ++ v, []))

/-- `format_dependency`. -/
def format_dependency (resolve : String → String) (dep : String) (c : Constraint) :
    Option (String × List String) :=
  match c with
  | .table t => format_dict_dependency resolve dep t
  | .str s => format_simple_dependency dep s

/-! ## Dev-dependency assembly (migrate_repo.py, lines 558-656) -/

/-- `extract_dep_name`: `dep.split(" ")[0].split("[")[0]`. -/
def extract_dep_name (dep : String) : String :=
  ⟨splitHead "[".data (splitHead " ".data dep.data)⟩

/-- One Poetry dependency group (`group.<name>` table). -/
structure PoetryGroup where
  dependencies : List (String × Constraint)

/-- The Poetry configuration block (the part the dev-dependency assembly
reads: the named dependency groups). -/
structure PoetryConfig where
  group : List (String × PoetryGroup)

/-- `get_all_group_deps`: all dependencies of all groups, in order. -/
def get_all_group_deps (pc : PoetryConfig) : List (String × Constraint) :=
  (pc.group.map (fun g => g.2.dependencies)).flatten

/-- `extract_dev_dependencies`: format every group dependency; `none`
models an uncaught exception from `normalize_version`. -/
def extract_dev_dependencies (resolve : String → String) (pc : PoetryConfig) :
    Option (List String) :=
  (get_all_group_deps pc).mapM (fun dc => (format_dependency resolve dc.1 dc.2).map (·.1))

/-- `build_type_stub_deps`. -/
def build_type_stub_deps (missing_stubs : List String) : List String :=
  missing_stubs.map (fun pkg => "types-" ++ pkg ++ " >=2.0.0, <3.0")

/-- `build_standard_tool_deps`. -/
def build_standard_tool_deps : List String :=
  ["pytest >=8.0.0, <9.0", "ruff >=0.1.3, <0.2.0", "mypy >=1.6.1, <2.0.0",
   "deptry >=0.14.2, <0.15.0"]

/-- `filter_new_deps` (the source's frozenset of existing names is
modelled as a list with membership semantics). -/
def filter_new_deps (deps : List String) (existing_names : List String) : List String :=
  deps.filter (fun d => !(existing_names.contains (extract_dep_name d)))

/-- `get_existing_dep_names`. -/
def get_existing_dep_names (existing : List String) : List String :=
  existing.map extract_dep_name

/-- `get_new_stubs`. -/
def get_new_stubs (missing_stubs existing_names : List String) : List String :=
  filter_new_deps (build_type_stub_deps missing_stubs) existing_names

/-- `get_new_tools`. -/
def get_new_tools (existing_names : List String) : List String :=
  filter_new_deps build_standard_tool_deps existing_names

/-- `RepoAnalysis` (migrate_repo.py, lines 65-76; tuples and frozensets
are modelled as lists). -/
structure RepoAnalysis where
  duplicate_deps : List String
  invalid_versions : List (String × String)
  module_conflicts : List (String × String)
  missing_stubs : List String
  has_async : Bool
  has_type_annotations : Bool
  has_long_lines : Bool
  python_versions : List String
deriving DecidableEq

/-- Python `sorted` on strings: ascending lexicographic order on code
points, which is Lean's `String` order. -/
def pySorted (l : List String) : List String :=
  l.mergeSort (fun a b => decide (a ≤ b))

/-- `build_dev_dependencies`. -/
def build_dev_dependencies (resolve : String → String) (pc : PoetryConfig)
    (analysis : RepoAnalysis) : Option (List String) :=
  (extract_dev_dependencies resolve pc).map fun existing =>
    let existing_names := get_existing_dep_names existing
    let stubs := get_new_stubs analysis.missing_stubs existing_names
    let tools := get_new_tools existing_names
    pySorted (existing ++ stubs ++ tools)

/-! ## Tool configuration (migrate_repo.py, lines 379-419) -/

/-- A TOML/ini configuration value (the shapes these rules produce). -/
inductive CfgVal where
  | b (v : Bool)
  | n (v : Nat)
  | strs (v : List String)
deriving DecidableEq

/-- Lookup in a Python dict modelled as an ordered association list. -/
def cfgGet (m : List (String × CfgVal)) (k : String) : Option CfgVal :=
  (m.find? (fun kv => kv.1 == k)).map (·.2)

/-- Python dict union `a | b` (right operand wins on key clashes; left
operand's other keys keep their order). -/
def pyDictMerge (a b : List (String × CfgVal)) : List (String × CfgVal) :=
  a.filter (fun kv => !(b.any (fun kv2 => kv2.1 == kv.1))) ++ b

/-- `build_async_mypy_config`. -/
def build_async_mypy_config : List (String × CfgVal) :=
  [("strict_optional", .b true), ("warn_unused_awaits", .b true)]

/-- `build_strict_mypy_config`. -/
def build_strict_mypy_config : List (String × CfgVal) :=
  [("strict", .b true), ("warn_return_any", .b true)]

/-- `get_async_config_keys`. -/
def get_async_config_keys : List String := ["strict_optional", "warn_unused_awaits"]

/-- `get_strict_config_keys`. -/
def get_strict_config_keys : List String := ["strict", "warn_return_any"]

/-- `build_mypy_config`: `async_cfg | strict_cfg | exclude_cfg`. -/
def build_mypy_config (analysis : RepoAnalysis) : List (String × CfgVal) :=
  let async_cfg := if analysis.has_async then build_async_mypy_config else []
  let strict_cfg := if analysis.has_type_annotations then build_strict_mypy_config else []
  let exclude_cfg :=
    if !analysis.module_conflicts.isEmpty then [("exclude", CfgVal.strs ["before/.*"])]
    else []
  pyDictMerge (pyDictMerge async_cfg strict_cfg) exclude_cfg

/-- `has_before_directory_conflicts`. -/
def has_before_directory_conflicts (conflicts : List (String × String)) : Bool :=
  conflicts.any (fun c => pyContains c.2 "before/")

/-- `build_ruff_config`: `line_cfg | exclude_cfg`. -/
def build_ruff_config (analysis : RepoAnalysis) : List (String × CfgVal) :=
  let line_cfg := if analysis.has_long_lines then [("line-length", CfgVal.n 100)] else []
  let has_before := has_before_directory_conflicts analysis.module_conflicts
  let exclude_cfg := if has_before then [("exclude", CfgVal.strs ["before"])] else []
  pyDictMerge line_cfg exclude_cfg

/-! ## Verification-and-commit driver (migrate_repo.py, lines 721-1098)

The driver is embedded over an environment of oracles (parsed manifest,
glob results, file-system predicates, and the exit status / stderr of
each external command); each embedded function returns its value together
with the ordered list of observable effects it performs.  `none` models
an uncaught exception.  The contents written to `pyproject.toml` are the
transformer outputs modelled above; the driver records the write event. -/

/-- `ExitCode` (migrate_repo.py, lines 21-25). -/
inductive ExitCode where
  | SUCCESS
  | FAILURE
deriving DecidableEq

/-- `UV_PATH`. -/
def UV_PATH : String := "/home/jon/Work/.local/bin/uv"

/-- Observable effects of a run. -/
inductive Action where
  | runCmd (cmd : List String)
  | writeFile (path : String)
  | removeFile (path : String)
  | updateManifest (status : String) (notes : String)
  | consolePrint (msg : String)
deriving DecidableEq

/-- The key-presence structure of the parsed `pyproject.toml` that
`has_poetry_config` and `is_already_migrated` inspect. -/
structure Doc where
  hasTool : Bool
  toolHasPoetry : Bool
  hasProject : Bool
  hasDependencyGroups : Bool
deriving DecidableEq

/-- The world a run interacts with. -/
structure Env where
  repoExists : Bool
  doc : Doc
  analysisResult : Option RepoAnalysis
  pythonFiles : List PyFile
  fileExists : String → Bool
  isFile : String → Bool
  rmOk : String → Bool
  cmdOk : List String → Bool
  cmdErr : List String → String

/-- `has_poetry_config`. -/
def has_poetry_config (doc : Doc) : Bool := doc.hasTool && doc.toolHasPoetry

/-- `is_already_migrated`: not Poetry-configured, and both `project` and
`dependency-groups` present. -/
def is_already_migrated (doc : Doc) : Bool :=
  !has_poetry_config doc && (doc.hasProject && doc.hasDependencyGroups)

/-- The source's single-subprocess runner (named after its role here; its
caught `CalledProcessError` becomes the `(false, message)` result). -/
def runCmdEnv (env : Env) (cmd : List String) : (Bool × String) × List Action :=
  if env.cmdOk cmd then ((true, ""), [.runCmd cmd])
  else
    ((false, "Error running " ++ String.intercalate " " cmd ++ ":\n" ++ env.cmdErr cmd),
     [.runCmd cmd])

/-- `execute_check_commands`: run each command in order, aborting at the
first failure. -/
def execute_check_commands (env : Env) : List (List String) → (Bool × String) × List Action
  | [] => ((true, ""), [])
  | cmd :: rest =>
    let r := runCmdEnv env cmd
    if r.1.1 then
      let rr := execute_check_commands env rest
      (rr.1, r.2 ++ rr.2)
    else (r.1, r.2)

/-- `build_base_commands`. -/
def build_base_commands : List (List String) :=
  [[UV_PATH, "sync", "--refresh"], [UV_PATH, "sync", "--group", "dev"]]

/-- `build_check_commands_list`. -/
def build_check_commands_list (python_files : List String) : List (List String) :=
  [[UV_PATH, "run", "ruff", "check", "."],
   [UV_PATH, "run", "mypy"] ++ python_files,
   [UV_PATH, "run", "pytest"]]

/-- `build_check_commands`. -/
def build_check_commands (python_files : List String) : List (List String) :=
  if python_files.isEmpty then build_base_commands
  else build_base_commands ++ build_check_commands_list python_files

/-- `run_checks` (the `UV_CACHE_DIR` environment override is part of the
`cmdOk`/`cmdErr` oracles). -/
def run_checks (env : Env) (python_files : List String) : (Bool × String) × List Action :=
  execute_check_commands env (build_check_commands python_files)

/-- `find_python_files`: glob results without `.venv` and without
`before/`, as path strings (the `relative_to` projection is part of the
`str` oracle of each file). -/
def find_python_files (env : Env) : List String :=
  ((get_python_files env.pythonFiles).filter
    (fun p => !(pyContains p.str "before/"))).map (fun p => p.str)

/-- `remove_path`: unlink a file, or `rm -rf` a directory via a
`check=True` subprocess whose failure (`rmOk` false) is an uncaught
exception. -/
def remove_path (env : Env) (path : String) : Option (List Action) :=
  if env.isFile path then some [.removeFile path]
  else if env.rmOk path then some [.runCmd ["rm", "-rf", path]]
  else none

/-- `clean_old_files`: remove `poetry.lock` and `.venv` when present. -/
def clean_old_files (env : Env) : Option (List Action) := do
  let a ← (if env.fileExists "poetry.lock" then remove_path env "poetry.lock" else some [])
  let b ← (if env.fileExists ".venv" then remove_path env ".venv" else some [])
  some (a ++ b)

/-- `extract_python_version`: `versions[0].replace(">=", "").strip()`,
then the first two dot components; `none` models the IndexError /
unpacking ValueError on malformed input. -/
def extract_python_version (analysis : RepoAnalysis) : Option String := do
  let v0 ← analysis.python_versions.head?
  let version : String := ⟨pyStrip (replaceAll ">=".data [] v0.data)⟩
  match splitAll ".".data version.data with
  | major :: minor :: _ => some (String.mk major ++ "." ++ String.mk minor)
  | _ => none

/-- `convert_pyproject`: fails (with a console message) when the Poetry
block is absent, otherwise rewrites `pyproject.toml` (see the transformer
functions above for the written content). -/
def convert_pyproject (env : Env) : Bool × List Action :=
  if !has_poetry_config env.doc then
    (false, [.consolePrint "No Poetry configuration found"])
  else (true, [.writeFile "pyproject.toml"])

/-- `perform_migration`: convert, write the `.python-version` pin file,
clean old artifacts. -/
def perform_migration (env : Env) (analysis : RepoAnalysis) :
    Option (Bool × List Action) :=
  let c := convert_pyproject env
  if !c.1 then some (false, c.2)
  else do
    let _ ← extract_python_version analysis
    let cleanTrace ← clean_old_files env
    some (true, c.2 ++ [Action.writeFile ".python-version"] ++ cleanTrace)

/-- `build_note_for_stubs`. -/
def build_note_for_stubs (stubs : List String) : String :=
  "added type stubs: " ++ String.intercalate ", " stubs

/-- `collect_commit_notes` (the four `find_*_notes` generators, chained). -/
def collect_commit_notes (analysis : RepoAnalysis) : List String :=
  (if !analysis.module_conflicts.isEmpty then ["excluded before/ directory"] else []) ++
  (if !analysis.missing_stubs.isEmpty then [build_note_for_stubs analysis.missing_stubs]
   else []) ++
  (if analysis.has_async then ["configured async mypy checks"] else []) ++
  (if analysis.has_type_annotations then ["enabled strict mypy mode"] else [])

/-- `build_commit_notes`. -/
def build_commit_notes (analysis : RepoAnalysis) : String :=
  let notes := collect_commit_notes analysis
  if !notes.isEmpty then String.intercalate "; " notes
  else "converted with standard configuration"

/-- `commit_changes`: stage, commit, update the tracking manifest.  The
boolean results of both `run_cmd` calls are discarded — only their traces
remain — so the manifest update happens regardless of the git exit
statuses. -/
def commit_changes (env : Env) (analysis : RepoAnalysis) : List Action :=
  let files := ["pyproject.toml", ".python-version", "uv.lock"]
  let r1 := runCmdEnv env (["git", "add"] ++ files)
  let note := build_commit_notes analysis
  let commit_msg := "chore: migrate from poetry to uv\n\n" ++ note
  let r2 := runCmdEnv env ["git", "commit", "-m", commit_msg]
  r1.2 ++ r2.2 ++ [.updateManifest "migrated" note]

/-- `handle_migration_success`. -/
def handle_migration_success (env : Env) (analysis : RepoAnalysis) :
    ExitCode × List Action :=
  (ExitCode.SUCCESS, commit_changes env analysis ++ [.consolePrint "Migration successful"])

/-- `handle_migration_failure`. -/
def handle_migration_failure (error : String) : ExitCode × List Action :=
  (ExitCode.FAILURE, [.consolePrint "Migration failed", .consolePrint error])

/-- `run_migration_and_checks`. -/
def run_migration_and_checks (env : Env) (analysis : RepoAnalysis) :
    Option (ExitCode × List Action) := do
  let m ← perform_migration env analysis
  if !m.1 then some (ExitCode.FAILURE, m.2)
  else
    let r := run_checks env (find_python_files env)
    if r.1.1 then
      let hs := handle_migration_success env analysis
      some (hs.1, m.2 ++ r.2 ++ hs.2)
    else
      let hf := handle_migration_failure r.1.2
      some (hf.1, m.2 ++ r.2 ++ hf.2)

/-- `check_already_migrated`. -/
def check_already_migrated (env : Env) : Bool × List Action :=
  if is_already_migrated env.doc then
    (true, [.consolePrint "Repository is already migrated to UV"])
  else (false, [])

/-- `handle_analysis_and_checks`. -/
def handle_analysis_and_checks (env : Env) (analysis : Option RepoAnalysis) :
    Option (ExitCode × List Action) :=
  match analysis with
  | none => some (ExitCode.FAILURE, [])
  | some a =>
    let c := check_already_migrated env
    if c.1 then some (ExitCode.SUCCESS, c.2)
    else (run_migration_and_checks env a).map (fun r => (r.1, c.2 ++ r.2))

/-- `print_analysis_results`. -/
def print_analysis_results (analysis : RepoAnalysis) : List Action :=
  [.consolePrint "\nAnalysis Results:",
   .consolePrint ("- Duplicate dependencies: " ++ intStr analysis.duplicate_deps.length),
   .consolePrint ("- Invalid versions: " ++ intStr analysis.invalid_versions.length),
   .consolePrint ("- Module conflicts: " ++ intStr analysis.module_conflicts.length),
   .consolePrint ("- Missing type stubs: " ++ intStr analysis.missing_stubs.length),
   .consolePrint ("- Has async code: " ++ (if analysis.has_async then "True" else "False")),
   .consolePrint ("- Has type annotations: " ++
     (if analysis.has_type_annotations then "True" else "False")),
   .consolePrint ("- Has long lines: " ++ (if analysis.has_long_lines then "True" else "False")),
   .consolePrint ("- Python versions: " ++
     String.intercalate ", " analysis.python_versions ++ "\n")]

/-- `perform_analysis`: the analysis itself is the `analysisResult`
oracle; an exception inside it is caught and reported. -/
def perform_analysis (env : Env) : Option RepoAnalysis × List Action :=
  match env.analysisResult with
  | some a => (some a, print_analysis_results a)
  | none => (none, [.consolePrint "Analysis failed"])

/-- `check_repo_exists`. -/
def check_repo_exists (env : Env) (repo : String) : Bool × List Action :=
  if !env.repoExists then
    (false, [.consolePrint ("Repository " ++ repo ++ " does not exist")])
  else (true, [])

/-- `migrate_repo`. -/
def migrate_repo (env : Env) (repo_path : String) : Option (ExitCode × List Action) :=
  let ce := check_repo_exists env repo_path
  if !ce.1 then some (ExitCode.FAILURE, ce.2)
  else
    let pa := perform_analysis env
    let pre := ce.2 ++ [Action.consolePrint ("Migrating " ++ repo_path)] ++ pa.2
    (handle_analysis_and_checks env pa.1).map (fun r => (r.1, pre ++ r.2))

/-- An action that changes the repository, the tracking manifest, or runs
an external command (everything except console output). -/
def Action.isMutating : Action → Bool
  | .runCmd _ => true
  | .writeFile _ => true
  | .removeFile _ => true
  | .updateManifest _ _ => true
  | .consolePrint _ => false

end PoetryMigration


/-! ## Unfolding equations for the fuel-driven primitives -/

namespace PoetryMigration

theorem replaceAllAux_fuel (pat rep : List Char) :
    ∀ (n : Nat) (l : List Char), l.length ≤ n →
      replaceAllAux pat rep n l = replaceAllAux pat rep l.length l := by
  intro n
  induction n using Nat.strong_induction_on with
  | _ n ih =>
    intro l hl
    match n, l with
    | 0, [] => rfl
    | m + 1, [] => rfl
    | 0, c :: rest => simp at hl
    | m + 1, c :: rest =>
      have hrest : rest.length ≤ m := by simpa using hl
      by_cases hc : pat ≠ [] ∧ isPre pat (c :: rest) = true
      · have hplen : 0 < pat.length := List.length_pos.mpr hc.1
        have hdl : ((c :: rest).drop pat.length).length ≤ rest.length := by
          simp only [List.length_drop, List.length_cons]; omega
        simp only [replaceAllAux, if_pos hc, List.length_cons]
        rw [ih m (by omega) _ (le_trans hdl hrest),
          ih rest.length (by omega) _ hdl]
      · simp only [replaceAllAux, if_neg hc, List.length_cons]
        rw [ih m (by omega) rest hrest, ih rest.length (by omega) rest le_rfl]

theorem replaceAll_nil (pat rep : List Char) : replaceAll pat rep [] = [] := rfl

theorem replaceAll_cons (pat rep : List Char) (c : Char) (rest : List Char) :
    replaceAll pat rep (c :: rest) =
      if pat ≠ [] ∧ isPre pat (c :: rest) = true then
        rep ++ replaceAll pat rep ((c :: rest).drop pat.length)
      else c :: replaceAll pat rep rest := by
  show replaceAllAux pat rep (rest.length + 1) (c :: rest) = _
  by_cases hc : pat ≠ [] ∧ isPre pat (c :: rest) = true
  · have hplen : 0 < pat.length := List.length_pos.mpr hc.1
    have hdl : ((c :: rest).drop pat.length).length ≤ rest.length := by
      simp only [List.length_drop, List.length_cons]; omega
    simp only [replaceAllAux, if_pos hc]
    rw [replaceAllAux_fuel pat rep rest.length _ hdl]
    rfl
  · simp only [replaceAllAux, if_neg hc]
    rfl

theorem natDigitsAux_fuel :
    ∀ (f n : Nat), n ≤ f → natDigitsAux f n = natDigits n := by
  intro f
  induction f using Nat.strong_induction_on with
  | _ f ih =>
    intro n hn
    match f, n with
    | 0, n =>
      have : n = 0 := by omega
      subst this; rfl
    | m + 1, n =>
      by_cases h10 : n < 10
      · simp only [natDigitsAux, if_pos h10, natDigits]
        match n, h10 with
        | 0, _ => rfl
        | k + 1, h =>
          show _ = natDigitsAux (k + 1) (k + 1)
          simp only [natDigitsAux, if_pos h]
      · have hdiv : n / 10 ≤ m := by
          have := Nat.div_lt_self (by omega : 0 < n) (by decide : 1 < 10)
          omega
        simp only [natDigitsAux, if_neg h10, natDigits]
        rw [ih m (by omega) _ hdiv]
        match n, h10, hn with
        | k + 1, h10, hn =>
          show _ = natDigitsAux (k + 1) (k + 1)
          have hdiv2 : (k + 1) / 10 ≤ k := by
            have := Nat.div_lt_self (by omega : 0 < k + 1) (by decide : 1 < 10)
            omega
          simp only [natDigitsAux, if_neg h10]
          rw [ih k (by omega) _ hdiv2]

end PoetryMigration

namespace PoetryMigration

/-! ## Digit-rendering lemmas -/

theorem digitChar_isDigit {n : Nat} (h : n < 10) : (digitChar n).isDigit = true := by
  interval_cases n <;> decide

theorem mem_natDigitsAux_isDigit :
    ∀ (f n : Nat), n ≤ f → ∀ c ∈ natDigitsAux f n, c.isDigit = true := by
  intro f
  induction f using Nat.strong_induction_on with
  | _ f ih =>
    intro n hn c hc
    match f with
    | 0 =>
      have : n = 0 := by omega
      subst this
      simp only [natDigitsAux, List.mem_singleton] at hc
      subst hc; decide
    | m + 1 =>
      by_cases h10 : n < 10
      · simp only [natDigitsAux, if_pos h10, List.mem_singleton] at hc
        subst hc; exact digitChar_isDigit h10
      · have hdiv : n / 10 ≤ m := by
          have := Nat.div_lt_self (by omega : 0 < n) (by decide : 1 < 10)
          omega
        simp only [natDigitsAux, if_neg h10, List.mem_append, List.mem_singleton] at hc
        rcases hc with hc | hc
        · exact ih m (by omega) _ hdiv c hc
        · subst hc; exact digitChar_isDigit (Nat.mod_lt _ (by decide))

theorem mem_natDigits_isDigit (n : Nat) : ∀ c ∈ natDigits n, c.isDigit = true :=
  mem_natDigitsAux_isDigit n n le_rfl

theorem mem_intStrL (m : Int) : ∀ c ∈ intStrL m, c.isDigit = true ∨ c = '-' := by
  intro c hc
  unfold intStrL at hc
  by_cases hm : m < 0
  · rw [if_pos hm] at hc
    rcases List.mem_cons.mp hc with h | h
    · exact Or.inr h
    · exact Or.inl (mem_natDigits_isDigit _ c h)
  · rw [if_neg hm] at hc
    exact Or.inl (mem_natDigits_isDigit _ c hc)

/-! ## Prefix / suffix / containment toolkit -/

theorem isPre_nil (l : List Char) : isPre [] l = true := by
  cases l <;> rfl

theorem isPre_cons (a : Char) (as : List Char) (b : Char) (bs : List Char) :
    isPre (a :: as) (b :: bs) = ((a == b) && isPre as bs) := rfl

theorem isPre_cons_nil (a : Char) (as : List Char) : isPre (a :: as) [] = false := rfl

theorem isPre_append_self (p t : List Char) : isPre p (p ++ t) = true := by
  induction p with
  | nil => exact isPre_nil t
  | cons a as ih => simp [isPre_cons, ih]

theorem mem_of_isPre {p l : List Char} (h : isPre p l = true) : ∀ c ∈ p, c ∈ l := by
  induction p generalizing l with
  | nil => intro c hc; simp at hc
  | cons a as ih =>
    cases l with
    | nil => simp [isPre_cons_nil] at h
    | cons b bs =>
      rw [isPre_cons, Bool.and_eq_true, beq_iff_eq] at h
      intro c hc
      rcases List.mem_cons.mp hc with rfl | hc
      · rw [h.1]; exact List.mem_cons_self _ _
      · exact List.mem_cons_of_mem _ (ih h.2 c hc)

theorem isPre_head {a : Char} {as l : List Char} (h : isPre (a :: as) l = true) :
    ∃ t, l = a :: t := by
  cases l with
  | nil => simp [isPre_cons_nil] at h
  | cons b bs =>
    rw [isPre_cons, Bool.and_eq_true, beq_iff_eq] at h
    exact ⟨bs, by rw [h.1]⟩

theorem isPre_trans {p q r : List Char} (h1 : isPre p q = true) (h2 : isPre q r = true) :
    isPre p r = true := by
  induction p generalizing q r with
  | nil => exact isPre_nil r
  | cons a as ih =>
    obtain ⟨qs, rfl⟩ := isPre_head h1
    obtain ⟨rs, rfl⟩ := isPre_head h2
    rw [isPre_cons, Bool.and_eq_true, beq_iff_eq] at h1 h2
    rw [isPre_cons, Bool.and_eq_true]
    exact ⟨by simp, ih h1.2 h2.2⟩

theorem isPre_append_cases {p a b : List Char} (h : isPre p (a ++ b) = true) :
    isPre p a = true ∨ (a.length < p.length ∧ isPre (p.drop a.length) b = true) := by
  induction a generalizing p with
  | nil =>
    cases p with
    | nil => exact Or.inl rfl
    | cons x p' => exact Or.inr ⟨by simp, h⟩
  | cons c a' ih =>
    cases p with
    | nil => exact Or.inl (isPre_nil _)
    | cons x p' =>
      rw [List.cons_append, isPre_cons, Bool.and_eq_true] at h
      rcases ih h.2 with h' | ⟨hlt, hp⟩
      · exact Or.inl (by rw [isPre_cons, Bool.and_eq_true]; exact ⟨h.1, h'⟩)
      · exact Or.inr ⟨by simpa using Nat.succ_lt_succ hlt, hp⟩

theorem isSuf_append_self (p t : List Char) : isSuf p (t ++ p) = true := by
  unfold isSuf
  rw [List.reverse_append]
  exact isPre_append_self _ _

theorem mem_of_isSuf {p l : List Char} (h : isSuf p l = true) : ∀ c ∈ p, c ∈ l := by
  intro c hc
  have := mem_of_isPre h c (by simpa using hc)
  simpa using this

theorem containsSub_cons (pat : List Char) (c : Char) (r : List Char) :
    containsSub pat (c :: r) = (isPre pat (c :: r) || containsSub pat r) := rfl

theorem mem_of_containsSub {pat l : List Char} (h : containsSub pat l = true) :
    ∀ c ∈ pat, c ∈ l := by
  induction l with
  | nil =>
    intro c hc
    simp only [containsSub, List.isEmpty_iff] at h
    subst h; simp at hc
  | cons a r ih =>
    rw [containsSub_cons, Bool.or_eq_true] at h
    intro c hc
    rcases h with h | h
    · exact mem_of_isPre h c hc
    · exact List.mem_cons_of_mem _ (ih h c hc)

theorem containsSub_eq_false_of_not_mem {x : Char} {pat l : List Char}
    (hx : x ∈ pat) (hl : x ∉ l) : containsSub pat l = false := by
  cases h : containsSub pat l
  · rfl
  · exact absurd (mem_of_containsSub h x hx) hl

theorem containsSub_append_elim {pat a b : List Char}
    (h : containsSub pat (a ++ b) = true) :
    containsSub pat a = true ∨ containsSub pat b = true ∨
      ∃ k, 0 < k ∧ k < pat.length ∧ isPre (pat.drop k) b = true := by
  induction a with
  | nil => exact Or.inr (Or.inl h)
  | cons c a' ih =>
    rw [List.cons_append, containsSub_cons, Bool.or_eq_true] at h
    rcases h with h | h
    · rcases isPre_append_cases (a := c :: a') h with h' | ⟨hlt, hp⟩
      · exact Or.inl (by rw [containsSub_cons, h']; rfl)
      · exact Or.inr (Or.inr ⟨(c :: a').length, by simp, hlt, hp⟩)
    · rcases ih h with h' | h' | ⟨k, hk1, hk2, hp⟩
      · exact Or.inl (by rw [containsSub_cons, h']; simp)
      · exact Or.inr (Or.inl h')
      · exact Or.inr (Or.inr ⟨k, hk1, hk2, hp⟩)

theorem splitHead_nil (pat : List Char) : splitHead pat [] = [] := rfl

theorem splitHead_of_not_contains {pat l : List Char}
    (h : containsSub pat l = false) : splitHead pat l = l := by
  induction l with
  | nil => rfl
  | cons c r ih =>
    rw [containsSub_cons, Bool.or_eq_false_iff] at h
    rw [splitHead, if_neg (by simp [h.1]), ih h.2]

theorem splitHead_isPre (pat l : List Char) : isPre (splitHead pat l) l = true := by
  induction l with
  | nil => rfl
  | cons c r ih =>
    rw [splitHead]
    by_cases hc : pat ≠ [] ∧ isPre pat (c :: r) = true
    · rw [if_pos hc]; exact isPre_nil _
    · rw [if_neg hc, isPre_cons]; simp [ih]

theorem not_contains_splitHead {pat : List Char} (hp : pat ≠ []) (l : List Char) :
    containsSub pat (splitHead pat l) = false := by
  induction l with
  | nil => simp [splitHead_nil, containsSub, List.isEmpty_iff, hp]
  | cons c r ih =>
    rw [splitHead]
    by_cases hc : isPre pat (c :: r) = true
    · rw [if_pos ⟨hp, hc⟩]
      simp [containsSub, List.isEmpty_iff, hp]
    · rw [if_neg (by simp [hc])]
      rw [containsSub_cons, Bool.or_eq_false_iff]
      refine ⟨?_, ih⟩
      cases hpre : isPre pat (c :: splitHead pat r)
      · rfl
      · have hstep : isPre (c :: splitHead pat r) (c :: r) = true := by
          rw [isPre_cons]; simp [splitHead_isPre]
        exact absurd (isPre_trans hpre hstep) (by simp [hc])

theorem splitHead_single_append_of_mem {x : Char} {a : List Char} (b : List Char)
    (hx : x ∈ a) : splitHead [x] (a ++ b) = splitHead [x] a := by
  induction a with
  | nil => simp at hx
  | cons c a' ih =>
    rw [List.cons_append, splitHead, splitHead]
    by_cases heq : x = c
    · subst heq
      rw [if_pos ⟨by simp, by simp [isPre_cons, isPre_nil]⟩,
        if_pos ⟨by simp, by simp [isPre_cons, isPre_nil]⟩]
    · have h1 : isPre [x] (c :: (a' ++ b)) = false := by
        simp [isPre_cons, isPre_nil, heq]
      have h2 : isPre [x] (c :: a') = false := by
        simp [isPre_cons, isPre_nil, heq]
      rw [if_neg (by simp [h1]), if_neg (by simp [h2]),
        ih ((List.mem_cons.mp hx).resolve_left heq)]

theorem splitHead_single_append_of_not_mem {x : Char} {a : List Char} (b : List Char)
    (hx : x ∉ a) : splitHead [x] (a ++ b) = a ++ splitHead [x] b := by
  induction a with
  | nil => simp
  | cons c a' ih =>
    have hne : x ≠ c := fun h => hx (h ▸ List.mem_cons_self _ _)
    rw [List.cons_append, splitHead,
      if_neg (by simp [isPre_cons, isPre_nil, hne]), List.cons_append,
      ih (fun h => hx (List.mem_cons_of_mem _ h))]

theorem splitHead_single_cons_self (x : Char) (l : List Char) :
    splitHead [x] (x :: l) = [] := by
  rw [splitHead, if_pos ⟨by simp, by simp [isPre_cons, isPre_nil]⟩]

end PoetryMigration

namespace PoetryMigration

/-! ## replaceAll lemmas -/

theorem replaceAll_head_not_mem {p : Char} {pt : List Char} (rep : List Char)
    {l : List Char} (h : p ∉ l) : replaceAll (p :: pt) rep l = l := by
  induction l with
  | nil => rfl
  | cons c r ih =>
    have hne : p ≠ c := fun hq => h (hq ▸ List.mem_cons_self _ _)
    rw [replaceAll_cons,
      if_neg (by simp [isPre_cons, hne]), ih (fun hq => h (List.mem_cons_of_mem _ hq))]

theorem replaceAll_single_not_mem {x : Char} (rep : List Char) {l : List Char}
    (h : x ∉ l) : replaceAll [x] rep l = l :=
  replaceAll_head_not_mem rep h

theorem replaceAll_single_cons_self (x : Char) (rep l : List Char) :
    replaceAll [x] rep (x :: l) = rep ++ replaceAll [x] rep l := by
  rw [replaceAll_cons, if_pos ⟨by simp, by simp [isPre_cons, isPre_nil]⟩]
  rfl

theorem replaceAll_append_pat {pat : List Char} (rep : List Char) (l : List Char)
    (hp : pat ≠ []) : replaceAll pat rep (pat ++ l) = rep ++ replaceAll pat rep l := by
  cases pat with
  | nil => exact absurd rfl hp
  | cons p pt =>
    rw [List.cons_append, replaceAll_cons,
      if_pos ⟨by simp, by rw [← List.cons_append]; exact isPre_append_self _ _⟩]
    congr 1
    rw [← List.cons_append]
    rw [show (p :: pt).length = pt.length + 1 from rfl]
    rw [show ((p :: pt) ++ l).drop (pt.length + 1) = (pt ++ l).drop pt.length from rfl,
      List.drop_left]

theorem mem_of_mem_replaceAll (pat rep : List Char) (c : Char) :
    ∀ l, c ∈ replaceAll pat rep l → c ∈ l ∨ c ∈ rep := by
  have H : ∀ n l, List.length l ≤ n → c ∈ replaceAll pat rep l → c ∈ l ∨ c ∈ rep := by
    intro n
    induction n with
    | zero =>
      intro l hl hc
      have : l = [] := List.eq_nil_of_length_eq_zero (Nat.le_zero.mp hl)
      subst this
      simp [replaceAll_nil] at hc
    | succ n ih =>
      intro l hl hc
      cases l with
      | nil => simp [replaceAll_nil] at hc
      | cons a r =>
        rw [replaceAll_cons] at hc
        by_cases hcond : pat ≠ [] ∧ isPre pat (a :: r) = true
        · rw [if_pos hcond] at hc
          rcases List.mem_append.mp hc with h | h
          · exact Or.inr h
          · have hplen : 0 < pat.length := List.length_pos.mpr hcond.1
            have hlen : ((a :: r).drop pat.length).length ≤ n := by
              simp only [List.length_drop, List.length_cons]
              simp only [List.length_cons] at hl
              omega
            rcases ih _ hlen h with h' | h'
            · exact Or.inl (List.mem_of_mem_drop h')
            · exact Or.inr h'
        · rw [if_neg hcond] at hc
          rcases List.mem_cons.mp hc with rfl | h
          · exact Or.inl (List.mem_cons_self _ _)
          · simp only [List.length_cons] at hl
            rcases ih r (by omega) h with h' | h'
            · exact Or.inl (List.mem_cons_of_mem _ h')
            · exact Or.inr h'
  exact fun l => H l.length l le_rfl

theorem not_mem_replaceAll_single {x : Char} {rep : List Char} (hx : x ∉ rep) :
    ∀ l, x ∉ replaceAll [x] rep l := by
  intro l
  induction l with
  | nil => simp [replaceAll_nil]
  | cons c r ih =>
    by_cases heq : x = c
    · subst heq
      rw [replaceAll_single_cons_self]
      intro hmem
      rcases List.mem_append.mp hmem with h | h
      · exact hx h
      · exact ih h
    · rw [replaceAll_cons, if_neg (by simp [isPre_cons, heq])]
      intro hmem
      rcases List.mem_cons.mp hmem with h | h
      · exact heq h
      · exact ih h

/-! ## String bridging -/

theorem data_append (s t : String) : (s ++ t).data = s.data ++ t.data := by
  cases s; cases t; rfl

theorem str_eq_iff (s t : String) : s = t ↔ s.data = t.data :=
  ⟨congrArg _, String.ext⟩

theorem joinDots_cons₂ (c c' : String) (r : List String) :
    (joinDots (c :: c' :: r)).data = c.data ++ '.' :: (joinDots (c' :: r)).data := by
  show (c ++ "." ++ joinDots (c' :: r)).data = _
  rw [data_append, data_append]
  simp

theorem joinDots_chars {comps : List String}
    (h : ∀ c ∈ comps, isDigitStr c = true) :
    ∀ x ∈ (joinDots comps).data, x.isDigit = true ∨ x = '.' := by
  induction comps with
  | nil => intro x hx; simp [joinDots] at hx
  | cons c rest ih =>
    cases rest with
    | nil =>
      intro x hx
      have hc := h c (List.mem_cons_self _ _)
      simp only [isDigitStr, Bool.and_eq_true, List.all_eq_true] at hc
      exact Or.inl (hc.2 x hx)
    | cons c' r =>
      intro x hx
      rw [joinDots_cons₂] at hx
      rcases List.mem_append.mp hx with hx | hx
      · have hc := h c (List.mem_cons_self _ _)
        simp only [isDigitStr, Bool.and_eq_true, List.all_eq_true] at hc
        exact Or.inl (hc.2 x hx)
      · rcases List.mem_cons.mp hx with rfl | hx
        · exact Or.inr rfl
        · exact ih (fun d hd => h d (List.mem_cons_of_mem _ hd)) x hx

theorem not_mem_of_digit_dot {d : List Char}
    (hd : ∀ x ∈ d, x.isDigit = true ∨ x = '.') {C : Char}
    (hC1 : C.isDigit = false) (hC2 : C ≠ '.') : C ∉ d := by
  intro hm
  rcases hd C hm with h | h
  · rw [h] at hC1; cases hC1
  · exact hC2 h

end PoetryMigration


namespace PoetryMigration

/-! ## Bridges between the String-level embeddings and the list mirrors -/

theorem data_mk (l : List Char) : (String.mk l).data = l := rfl

theorem data_caret : ("^" : String).data = ['^'] := rfl
theorem data_tilde : ("~" : String).data = ['~'] := rfl
theorem data_ge : (">=" : String).data = ['>', '='] := rfl
theorem data_wild : (".*" : String).data = ['.', '*'] := rfl
theorem data_post : (".post" : String).data = ['.', 'p', 'o', 's', 't'] := rfl
theorem data_dot0 : (".0" : String).data = ['.', '0'] := rfl
theorem data_dot : ("." : String).data = ['.'] := rfl
theorem data_commalt : ((", <" : String)).data = [',', ' ', '<'] := rfl

theorem strip_data (v : String) : (strip_version_markers v).data = stripL v.data := by
  simp only [strip_version_markers, stripL, pyReplace, pyEndsWith, pyContains,
    pySplitHead, pyDropRight, apply_ite String.data, data_mk, data_caret, data_tilde,
    data_ge, data_wild, data_post]

theorem ensure_data (v : String) : (ensure_patch_version v).data = ensureL v.data := by
  simp only [ensure_patch_version, ensureL, pyEndsWith, apply_ite String.data,
    data_append, data_dot0]

theorem normalize_data (v : String) :
    (normalize_version_string v).data = ensureL (stripL v.data) := by
  unfold normalize_version_string
  rw [ensure_data, strip_data]

theorem add_upper_bridge (v : String) :
    add_upper_bound v = (addUpperL v.data).map String.mk := by
  unfold add_upper_bound addUpperL
  rw [Option.map_map]
  rw [show (">=" : String).data = ['>', '='] from rfl,
    show ("." : String).data = ['.'] from rfl]
  rcases pyIntL (replaceAll ['>', '='] [] (splitHead ['.'] v.data)) with _ | m
  · rfl
  · show some _ = some _
    congr 1

theorem validate_bridge (v : String) :
    validate_version_constraint v = (validateL v.data).map String.mk := by
  unfold validate_version_constraint add_upper_bound_if_needed validateL
  have hs : pyStartsWith (normalize_version_string v) ">=" =
      isPre ['>', '='] (ensureL (stripL v.data)) := by
    show isPre (">=").data (normalize_version_string v).data = _
    rw [normalize_data, data_ge]
  rw [hs]
  by_cases h : isPre ['>', '='] (ensureL (stripL v.data)) = true
  · rw [if_pos h, if_pos h, add_upper_bridge, normalize_data]
  · rw [if_neg h, if_neg h]
    show some _ = some _
    congr 1
    exact String.ext (normalize_data v)

theorem option_map_mk (x : Option Int) (f : Int → String) (g : Int → List Char)
    (h : ∀ m, (f m).data = g m) : x.map f = (x.map g).map String.mk := by
  rcases x with _ | m
  · rfl
  · show some _ = some _
    rw [← h m]

theorem spec_bridge (v : String) :
    spec_normalize_pipeline v = (specL v.data).map String.mk := by
  have key : ∀ (s : String) (sl : List Char), s.data = sl →
      ((let n := if pyEndsWith s ".0" then s else s ++ ".0";
        if pyStartsWith n ">=" then
          (pyIntL (dropOncePre (">=" : String).data
              (splitHead ("." : String).data n.data))).map
            (fun major => n ++ ", <" ++ intStr (major + 1) ++ ".0")
        else some n) =
       ((let n := if isSuf ['.', '0'] sl then sl else sl ++ ['.', '0'];
         if isPre ['>', '='] n then
           (pyIntL (dropOncePre ['>', '='] (splitHead ['.'] n))).map
             (fun major => n ++ [',', ' ', '<'] ++ intStrL (major + 1) ++ ['.', '0'])
         else some n).map String.mk)) := by
    intro s sl hsl
    subst hsl
    by_cases h0 : isSuf ['.', '0'] s.data = true
    · simp only [show pyEndsWith s ".0" = isSuf ['.', '0'] s.data from rfl, h0, if_true]
      rw [show pyStartsWith s ">=" = isPre ['>', '='] s.data from rfl]
      by_cases h1 : isPre ['>', '='] s.data = true
      · rw [if_pos h1, if_pos h1]
        exact option_map_mk _ _ _ (fun m => by
          simp only [data_append, data_commalt, data_dot0, intStr, data_mk,
            List.append_assoc])
      · rw [if_neg h1, if_neg h1]
        rfl
    · have h0' : isSuf ['.', '0'] s.data = false := by
        cases h : isSuf ['.', '0'] s.data
        · rfl
        · exact absurd h h0
      have hd : (s ++ ".0").data = s.data ++ ['.', '0'] := by
        rw [data_append]
      simp only [show pyEndsWith s ".0" = isSuf ['.', '0'] s.data from rfl, h0',
        Bool.false_eq_true, if_false]
      rw [show pyStartsWith (s ++ ".0") ">=" = isPre ['>', '='] (s ++ ".0").data from rfl,
        hd]
      by_cases h1 : isPre ['>', '='] (s.data ++ ['.', '0']) = true
      · rw [if_pos h1, if_pos h1]
        exact option_map_mk _ _ _ (fun m => by
          simp only [data_append, data_commalt, data_dot0, intStr, data_mk,
            List.append_assoc])
      · rw [if_neg h1, if_neg h1]
        show some _ = some _
        congr 1
  exact key (strip_version_markers v) (stripL v.data) (strip_data v)

end PoetryMigration

namespace PoetryMigration

/-! ## The pipeline on documented shapes -/

theorem ensureL_eq (l : List Char) :
    ensureL l = if isSuf ['.', '0'] l then l else l ++ ['.', '0'] := by
  unfold ensureL
  cases h : isSuf ['.', '0'] l <;> simp [h]

theorem validateL_specL_shape (op : String) (comps : List String) (wild : Bool)
    (hop : op = "" ∨ op = "^" ∨ op = "~" ∨ op = ">=")
    (hne : comps ≠ []) (hdig : ∀ c ∈ comps, isDigitStr c = true) :
    validateL (renderConstraint op comps wild).data =
      specL (renderConstraint op comps wild).data := by
  have hd := joinDots_chars hdig
  set d := (joinDots comps).data with hd_def
  set w : List Char := if wild then ['.', '*'] else [] with hw_def
  have hw : ∀ x ∈ w, x = '.' ∨ x = '*' := by
    cases wild <;> intro x hx <;> simp [hw_def] at hx
    · rcases hx with h | h
      · exact Or.inl h
      · exact Or.inr h
  have hv : (renderConstraint op comps wild).data = op.data ++ (d ++ w) := by
    unfold renderConstraint
    rw [data_append, data_append, List.append_assoc]
    congr 2
    cases wild <;> rfl
  -- characters absent from `d ++ w`
  have hnd : ∀ (C : Char), C.isDigit = false → C ≠ '.' → C ≠ '*' → C ∉ d ++ w := by
    intro C h1 h2 h3 hmem
    rcases List.mem_append.mp hmem with h | h
    · exact not_mem_of_digit_dot hd h1 h2 h
    · rcases hw C h with h | h
      · exact h2 h
      · exact h3 h
  -- marker replacement collapses the operator to `>=` (or nothing)
  obtain ⟨g, hg, hs2⟩ :
      ∃ g, (op = "" ∧ g = [] ∨ g = ['>', '=']) ∧
        replaceAll ['~'] ['>', '='] (replaceAll ['^'] ['>', '='] (op.data ++ (d ++ w))) =
          g ++ (d ++ w) := by
    have hcaret : '^' ∉ d ++ w := hnd '^' (by decide) (by decide) (by decide)
    have htilde : '~' ∉ d ++ w := hnd '~' (by decide) (by decide) (by decide)
    rcases hop with rfl | rfl | rfl | rfl
    · refine ⟨[], Or.inl ⟨rfl, rfl⟩, ?_⟩
      rw [show ("" : String).data = [] from rfl, List.nil_append,
        replaceAll_single_not_mem _ hcaret, replaceAll_single_not_mem _ htilde]
    · refine ⟨['>', '='], Or.inr rfl, ?_⟩
      rw [data_caret, show (['^'] ++ (d ++ w)) = '^' :: (d ++ w) from rfl,
        replaceAll_single_cons_self, replaceAll_single_not_mem _ hcaret]
      have h2 : '~' ∉ ['>', '='] ++ (d ++ w) := by
        intro hmem
        rcases List.mem_append.mp hmem with h | h
        · simp at h
        · exact htilde h
      rw [replaceAll_single_not_mem _ h2]
    · refine ⟨['>', '='], Or.inr rfl, ?_⟩
      have h1 : '^' ∉ ('~' :: (d ++ w)) := by
        intro hmem
        rcases List.mem_cons.mp hmem with h | h
        · simp at h
        · exact hcaret h
      rw [data_tilde, show (['~'] ++ (d ++ w)) = '~' :: (d ++ w) from rfl,
        replaceAll_single_not_mem _ h1, replaceAll_single_cons_self,
        replaceAll_single_not_mem _ htilde]
    · refine ⟨['>', '='], Or.inr rfl, ?_⟩
      have h1 : '^' ∉ ['>', '='] ++ (d ++ w) := by
        intro hmem
        rcases List.mem_append.mp hmem with h | h
        · simp at h
        · exact hcaret h
      have h2 : '~' ∉ ['>', '='] ++ (d ++ w) := by
        intro hmem
        rcases List.mem_append.mp hmem with h | h
        · simp at h
        · exact htilde h
      rw [data_ge, replaceAll_single_not_mem _ h1, replaceAll_single_not_mem _ h2]
  have hgchars : ∀ x ∈ g, x = '>' ∨ x = '=' := by
    rcases hg with ⟨_, rfl⟩ | rfl
    · intro x hx; simp at hx
    · intro x hx
      rcases List.mem_cons.mp hx with h | h
      · exact Or.inl h
      · simp at h; exact Or.inr h
  -- the wildcard strip
  have hs3 : (if isSuf ['.', '*'] (g ++ (d ++ w)) then dropRightL 2 (g ++ (d ++ w))
      else (g ++ (d ++ w))) = g ++ d := by
    cases hwild : wild
    · have hwe : w = [] := by rw [hw_def, hwild]; rfl
      rw [hwe]
      have : isSuf ['.', '*'] (g ++ (d ++ [])) = false := by
        cases h : isSuf ['.', '*'] (g ++ (d ++ []))
        · rfl
        · have := mem_of_isSuf h '*' (by decide)
          rw [List.append_nil] at this
          rcases List.mem_append.mp this with hm | hm
          · rcases hgchars _ hm with h' | h' <;> simp at h'
          · exact absurd hm (not_mem_of_digit_dot hd (by decide) (by decide))
      rw [this]
      simp
    · have hwe : w = ['.', '*'] := by rw [hw_def, hwild]; rfl
      rw [hwe]
      have hassoc : g ++ (d ++ ['.', '*']) = (g ++ d) ++ ['.', '*'] := by
        rw [List.append_assoc]
      rw [hassoc, isSuf_append_self, if_pos rfl]
      unfold dropRightL
      rw [List.length_append, show (['.', '*'] : List Char).length = 2 from rfl,
        Nat.add_sub_cancel, List.take_left]
  -- the `.post` strip does nothing
  have hs4 : containsSub ['.', 'p', 'o', 's', 't'] (g ++ d) = false := by
    refine containsSub_eq_false_of_not_mem (x := 'p') (by decide) ?_
    intro hmem
    rcases List.mem_append.mp hmem with h | h
    · rcases hgchars _ h with h' | h' <;> simp at h'
    · exact absurd h (not_mem_of_digit_dot hd (by decide) (by decide))
  have hstrip : stripL (renderConstraint op comps wild).data = g ++ d := by
    simp only [stripL]
    rw [hv, hs2, hs3, hs4]
    simp
  -- decompose the leading component
  obtain ⟨c₀, rest, rfl⟩ : ∃ c₀ rest, comps = c₀ :: rest := by
    cases comps with
    | nil => exact absurd rfl hne
    | cons a b => exact ⟨a, b, rfl⟩
  have hc₀ := hdig c₀ (List.mem_cons_self _ _)
  rw [isDigitStr, Bool.and_eq_true, Bool.not_eq_true', List.isEmpty_eq_false,
    List.all_eq_true] at hc₀
  have hc₀dig : ∀ x ∈ c₀.data, x.isDigit = true := hc₀.2
  have hdotc₀ : '.' ∉ c₀.data := by
    intro hm
    have := hc₀dig '.' hm
    simp at this
  have hdotg : '.' ∉ g := by
    intro hm
    rcases hgchars _ hm with h | h <;> simp at h
  -- the normalized string, uniformly
  obtain ⟨Y, hN⟩ : ∃ Y, ensureL (g ++ d) = g ++ (c₀.data ++ '.' :: Y) := by
    cases rest with
    | nil =>
      have hdc : d = c₀.data := by rw [hd_def]; rfl
      have : isSuf ['.', '0'] (g ++ d) = false := by
        cases h : isSuf ['.', '0'] (g ++ d)
        · rfl
        · have := mem_of_isSuf h '.' (by decide)
          rcases List.mem_append.mp this with hm | hm
          · exact absurd hm hdotg
          · rw [hdc] at hm; exact absurd hm hdotc₀
      refine ⟨['0'], ?_⟩
      rw [ensureL_eq, this]
      simp only [Bool.false_eq_true, if_false]
      rw [hdc, List.append_assoc]
    | cons c₁ r =>
      have hdc : d = c₀.data ++ '.' :: (joinDots (c₁ :: r)).data := by
        rw [hd_def]; exact joinDots_cons₂ c₀ c₁ r
      rw [ensureL_eq]
      by_cases h : isSuf ['.', '0'] (g ++ d) = true
      · exact ⟨(joinDots (c₁ :: r)).data, by rw [if_pos h, hdc]⟩
      · refine ⟨(joinDots (c₁ :: r)).data ++ ['.', '0'], ?_⟩
        rw [if_neg h, hdc]
        simp [List.append_assoc]
    -- end cases
  -- the leading dot component of the normalized string
  have hfc : splitHead ['.'] (ensureL (g ++ d)) = g ++ c₀.data := by
    rw [hN, splitHead_single_append_of_not_mem _ hdotg,
      splitHead_single_append_of_not_mem _ hdotc₀, splitHead_single_cons_self,
      List.append_nil]
  -- the two major-extraction styles agree
  have hgt : '>' ∉ c₀.data := by
    intro hm
    have := hc₀dig '>' hm
    simp at this
  have hextract : replaceAll ['>', '='] [] (g ++ c₀.data) =
      dropOncePre ['>', '='] (g ++ c₀.data) := by
    rcases hg with ⟨_, rfl⟩ | rfl
    · rw [List.nil_append, replaceAll_head_not_mem _ hgt]
      unfold dropOncePre
      obtain ⟨hc, tl, hct⟩ : ∃ hc tl, c₀.data = hc :: tl := by
        cases hcd : c₀.data with
        | nil => exact absurd hcd hc₀.1
        | cons a b => exact ⟨a, b, rfl⟩
      have : isPre ['>', '='] c₀.data = false := by
        rw [hct, isPre_cons]
        have : ('>' == hc) = false := by
          cases h : ('>' == hc)
          · rfl
          · have hh : hc = '>' := (beq_iff_eq.mp h).symm
            have := hc₀dig hc (hct ▸ List.mem_cons_self _ _)
            rw [hh] at this
            simp at this
        rw [this, Bool.false_and]
      rw [this]
      simp
    · rw [replaceAll_append_pat _ _ (by simp), List.nil_append,
        replaceAll_head_not_mem _ hgt]
      unfold dropOncePre
      rw [if_pos (isPre_append_self _ _),
        show (['>', '='] : List Char).length = 2 from rfl,
        show (2 : Nat) = (['>', '='] : List Char).length from rfl, List.drop_left]
  -- put it all together
  simp only [validateL, specL]
  rw [hstrip, ← ensureL_eq]
  by_cases hb : isPre ['>', '='] (ensureL (g ++ d)) = true
  · rw [if_pos hb, if_pos hb]
    unfold addUpperL
    rw [hfc, hextract]
  · rw [if_neg hb, if_neg hb]

end PoetryMigration

namespace PoetryMigration

/-! ## Structure of normalized outputs (for re-normalization analysis) -/

theorem not_contains_append_post {a b : List Char}
    (ha : containsSub ['.', 'p', 'o', 's', 't'] a = false)
    (hb : containsSub ['.', 'p', 'o', 's', 't'] b = false)
    (hk : ∀ k, 0 < k → k < 5 →
      isPre ((['.', 'p', 'o', 's', 't'] : List Char).drop k) b = false) :
    containsSub ['.', 'p', 'o', 's', 't'] (a ++ b) = false := by
  cases h : containsSub ['.', 'p', 'o', 's', 't'] (a ++ b)
  · rfl
  · exfalso
    rcases containsSub_append_elim h with h' | h' | ⟨k, hk1, hk2, hp⟩
    · rw [ha] at h'; cases h'
    · rw [hb] at h'; cases h'
    · have hlen : k < 5 := by simpa using hk2
      rw [hk k hk1 hlen] at hp; cases hp

theorem stripL_facts (l : List Char) :
    '^' ∉ stripL l ∧ '~' ∉ stripL l ∧
      containsSub ['.', 'p', 'o', 's', 't'] (stripL l) = false := by
  simp only [stripL]
  set s1 := replaceAll ['^'] ['>', '='] l with hs1
  have h1 : '^' ∉ s1 := not_mem_replaceAll_single (by decide) l
  set s2 := replaceAll ['~'] ['>', '='] s1 with hs2
  have h2 : '~' ∉ s2 := not_mem_replaceAll_single (by decide) s1
  have h1' : '^' ∉ s2 := by
    intro hm
    rcases mem_of_mem_replaceAll _ _ _ s1 hm with h | h
    · exact h1 h
    · simp at h
  set s3 := if isSuf ['.', '*'] s2 then dropRightL 2 s2 else s2 with hs3
  have hsub3 : ∀ x, x ∈ s3 → x ∈ s2 := by
    intro x hx
    rw [hs3] at hx
    by_cases hc : isSuf ['.', '*'] s2 = true
    · rw [if_pos hc] at hx
      exact List.mem_of_mem_take hx
    · rw [if_neg hc] at hx
      exact hx
  by_cases hp : containsSub ['.', 'p', 'o', 's', 't'] s3 = true
  · rw [if_pos hp]
    have hsub4 : ∀ x, x ∈ splitHead ['.', 'p', 'o', 's', 't'] s3 → x ∈ s3 :=
      fun x hx => mem_of_isPre (splitHead_isPre _ _) x hx
    exact ⟨fun hm => h1' (hsub3 _ (hsub4 _ hm)), fun hm => h2 (hsub3 _ (hsub4 _ hm)),
      not_contains_splitHead (by simp) s3⟩
  · rw [if_neg hp]
    exact ⟨fun hm => h1' (hsub3 _ hm), fun hm => h2 (hsub3 _ hm), by simpa using hp⟩

theorem ensureL_facts (l : List Char) :
    '^' ∉ ensureL (stripL l) ∧ '~' ∉ ensureL (stripL l) ∧
      containsSub ['.', 'p', 'o', 's', 't'] (ensureL (stripL l)) = false ∧
      isSuf ['.', '0'] (ensureL (stripL l)) = true := by
  obtain ⟨h1, h2, h3⟩ := stripL_facts l
  rw [ensureL_eq]
  by_cases h : isSuf ['.', '0'] (stripL l) = true
  · rw [if_pos h]
    exact ⟨h1, h2, h3, h⟩
  · rw [if_neg h]
    refine ⟨?_, ?_, ?_, isSuf_append_self _ _⟩
    · intro hm
      rcases List.mem_append.mp hm with hm | hm
      · exact h1 hm
      · simp at hm
    · intro hm
      rcases List.mem_append.mp hm with hm | hm
      · exact h2 hm
      · simp at hm
    · refine not_contains_append_post h3 (by decide) ?_
      intro k hk1 hk2
      interval_cases k <;> decide

theorem suffix_dot0_not_dotstar {l : List Char} (h : isSuf ['.', '0'] l = true) :
    isSuf ['.', '*'] l = false := by
  cases hs : isSuf ['.', '*'] l
  · rfl
  · exfalso
    unfold isSuf at h hs
    rw [show (['.', '0'] : List Char).reverse = ['0', '.'] from rfl] at h
    rw [show (['.', '*'] : List Char).reverse = ['*', '.'] from rfl] at hs
    obtain ⟨t, ht⟩ := isPre_head h
    obtain ⟨t', ht'⟩ := isPre_head hs
    rw [ht] at ht'
    cases ht'

end PoetryMigration

namespace PoetryMigration

theorem validateL_renormalize {v lw : List Char}
    (h : validateL v = some lw) (hge : isPre ['>', '='] lw = true) :
    ∃ m : Int, validateL lw = some (lw ++ [',', ' ', '<'] ++ intStrL m ++ ['.', '0']) := by
  obtain ⟨hN1, hN2, hN3, hN4⟩ := ensureL_facts v
  replace h : (if isPre ['>', '='] (ensureL (stripL v)) then addUpperL (ensureL (stripL v))
      else some (ensureL (stripL v))) = some lw := h
  set N := ensureL (stripL v) with hNdef
  by_cases hb : isPre ['>', '='] N = true
  · rw [if_pos hb] at h
    unfold addUpperL at h
    obtain ⟨m, hm, hlw⟩ :
        ∃ m, pyIntL (replaceAll ['>', '='] [] (splitHead ['.'] N)) = some m ∧
          lw = N ++ [',', ' ', '<'] ++ intStrL (m + 1) ++ ['.', '0'] := by
      rcases hInt : pyIntL (replaceAll ['>', '='] [] (splitHead ['.'] N)) with _ | m
      · rw [hInt] at h; cases h
      · rw [hInt] at h
        exact ⟨m, rfl, (Option.some.inj h).symm⟩
    subst hlw
    have hgrp : N ++ [',', ' ', '<'] ++ intStrL (m + 1) ++ ['.', '0'] =
        N ++ ([',', ' ', '<'] ++ (intStrL (m + 1) ++ ['.', '0'])) := by
      simp [List.append_assoc]
    set B : List Char := [',', ' ', '<'] ++ (intStrL (m + 1) ++ ['.', '0']) with hBdef
    rw [hgrp]
    rw [hgrp] at hge
    have hBmem : ∀ x ∈ B, x = ',' ∨ x = ' ' ∨ x = '<' ∨ x.isDigit = true ∨ x = '-' ∨
        x = '.' ∨ x = '0' := by
      intro x hx
      rw [hBdef] at hx
      rcases List.mem_append.mp hx with hx | hx
      · rcases List.mem_cons.mp hx with rfl | hx
        · exact Or.inl rfl
        rcases List.mem_cons.mp hx with rfl | hx
        · exact Or.inr (Or.inl rfl)
        rcases List.mem_cons.mp hx with rfl | hx
        · exact Or.inr (Or.inr (Or.inl rfl))
        · simp at hx
      · rcases List.mem_append.mp hx with hx | hx
        · rcases mem_intStrL _ x hx with h' | h'
          · exact Or.inr (Or.inr (Or.inr (Or.inl h')))
          · exact Or.inr (Or.inr (Or.inr (Or.inr (Or.inl h'))))
        · rcases List.mem_cons.mp hx with rfl | hx
          · exact Or.inr (Or.inr (Or.inr (Or.inr (Or.inr (Or.inl rfl)))))
          · rcases List.mem_cons.mp hx with rfl | hx
            · exact Or.inr (Or.inr (Or.inr (Or.inr (Or.inr (Or.inr rfl)))))
            · simp at hx
    have hw1 : '^' ∉ N ++ B := by
      intro hm'
      rcases List.mem_append.mp hm' with h' | h'
      · exact hN1 h'
      · rcases hBmem _ h' with h' | h' | h' | h' | h' | h' | h' <;> simp at h'
    have hw2 : '~' ∉ N ++ B := by
      intro hm'
      rcases List.mem_append.mp hm' with h' | h'
      · exact hN2 h'
      · rcases hBmem _ h' with h' | h' | h' | h' | h' | h' | h' <;> simp at h'
    have hpB : 'p' ∉ B := by
      intro h'
      rcases hBmem _ h' with h' | h' | h' | h' | h' | h' | h' <;> simp at h'
    have hw3 : isSuf ['.', '0'] (N ++ B) = true := by
      rw [hBdef, show N ++ ([',', ' ', '<'] ++ (intStrL (m + 1) ++ ['.', '0'])) =
        (N ++ ([',', ' ', '<'] ++ intStrL (m + 1))) ++ ['.', '0'] from by
          simp [List.append_assoc]]
      exact isSuf_append_self _ _
    have hw4 : isSuf ['.', '*'] (N ++ B) = false := suffix_dot0_not_dotstar hw3
    have hw5 : containsSub ['.', 'p', 'o', 's', 't'] (N ++ B) = false := by
      refine not_contains_append_post hN3
        (containsSub_eq_false_of_not_mem (by decide) hpB) ?_
      intro k hk1 hk2
      have hB' : B = ',' :: (' ' :: '<' :: (intStrL (m + 1) ++ ['.', '0'])) := by
        rw [hBdef]; rfl
      interval_cases k
      · rw [hB', show ((['.', 'p', 'o', 's', 't'] : List Char).drop 1) = ['p', 'o', 's', 't']
          from rfl, isPre_cons, show ('p' == ',') = false from rfl, Bool.false_and]
      · rw [hB', show ((['.', 'p', 'o', 's', 't'] : List Char).drop 2) = ['o', 's', 't']
          from rfl, isPre_cons, show ('o' == ',') = false from rfl, Bool.false_and]
      · rw [hB', show ((['.', 'p', 'o', 's', 't'] : List Char).drop 3) = ['s', 't']
          from rfl, isPre_cons, show ('s' == ',') = false from rfl, Bool.false_and]
      · rw [hB', show ((['.', 'p', 'o', 's', 't'] : List Char).drop 4) = ['t']
          from rfl, isPre_cons, show ('t' == ',') = false from rfl, Bool.false_and]
    have hstriplw : stripL (N ++ B) = N ++ B := by
      simp only [stripL]
      rw [replaceAll_single_not_mem _ hw1, replaceAll_single_not_mem _ hw2, hw4]
      simp only [Bool.false_eq_true, if_false]
      rw [hw5]
      simp
    have hensurelw : ensureL (N ++ B) = N ++ B := by
      rw [ensureL_eq, hw3, if_pos rfl]
    have hdotN : '.' ∈ N := mem_of_isSuf hN4 '.' (by decide)
    have hsplit : splitHead ['.'] (N ++ B) = splitHead ['.'] N :=
      splitHead_single_append_of_mem _ hdotN
    refine ⟨m + 1, ?_⟩
    show (if isPre ['>', '='] (ensureL (stripL (N ++ B))) then
        addUpperL (ensureL (stripL (N ++ B))) else some (ensureL (stripL (N ++ B)))) = _
    rw [hstriplw, hensurelw, if_pos hge]
    unfold addUpperL
    rw [hsplit, hm]
    rfl
  · rw [if_neg hb] at h
    rw [Option.some.inj h] at hb
    exact absurd hge hb

/-- Over-length fact for the non-idempotence conclusion. -/
theorem append_upper_ne {w : String} {m : Int} :
    w ++ ", <" ++ intStr m ++ ".0" ≠ w := by
  intro h
  have := congrArg (fun s => s.data.length) h
  simp only [data_append, data_commalt, data_dot0, List.length_append,
    List.length_cons, List.length_nil] at this
  omega

end PoetryMigration

namespace PoetryMigration

/-- C1: on every version-constraint string of the documented shapes,
`validate_version_constraint` applies exactly the spec's pipeline
(caret/tilde become `>=`, a trailing `.*` wildcard and any `.post` suffix
are stripped, `.0` is appended when the string does not already end in
`.0`, and when the result starts with `>=` an exclusive upper bound one
major version above the leading integer is appended); in particular
`^1.2.3` yields `>=1.2.3.0, <2.0` (lower bound 1.2.3 with an enforced
patch component and upper bound `<2.0`), `~2.0` yields `>=2.0, <3.0`,
and `>=3.0.*` yields `>=3.0, <4.0`. -/
theorem version_pipeline_follows_spec :
    (∀ v : String, DocumentedShape v →
        validate_version_constraint v = spec_normalize_pipeline v) ∧
    validate_version_constraint "^1.2.3" = some ">=1.2.3.0, <2.0" ∧
    validate_version_constraint "~2.0" = some ">=2.0, <3.0" ∧
    validate_version_constraint ">=3.0.*" = some ">=3.0, <4.0" := by
  refine ⟨?_, by decide, by decide, by decide⟩
  rintro v ⟨op, comps, wild, hop, hne, hdig, rfl⟩
  rw [validate_bridge, spec_bridge, validateL_specL_shape op comps wild hop hne hdig]

/-- Witness for C1: the documented shape `^1.2.3`. -/
theorem version_pipeline_follows_spec_witness :
    validate_version_constraint "^1.2.3" = spec_normalize_pipeline "^1.2.3" :=
  version_pipeline_follows_spec.1 "^1.2.3"
    ⟨"^", ["1", "2", "3"], false, Or.inr (Or.inl rfl), by decide, by decide, by decide⟩

/-- C2 counterexample: `^1.2` normalizes to `>=1.2.0, <2.0`, but
re-normalizing that output appends a second upper bound instead of
reproducing the same string. -/
theorem renormalization_not_idempotent_counterexample :
    validate_version_constraint "^1.2" = some ">=1.2.0, <2.0" ∧
    validate_version_constraint ">=1.2.0, <2.0" = some ">=1.2.0, <2.0, <2.0" ∧
    validate_version_constraint ">=1.2.0, <2.0" ≠ some ">=1.2.0, <2.0" := by
  exact ⟨by decide, by decide, by decide⟩

/-- C2 amended: normalization is a pure function (hence deterministic),
but it is NOT idempotent on its own `>=`-outputs: re-applying
`validate_version_constraint` to any of its outputs that still starts
with `>=` appends one more upper bound, producing a strictly different
string. -/
theorem renormalization_appends_second_upper_bound :
    ∀ v w : String, validate_version_constraint v = some w →
      pyStartsWith w ">=" = true →
      (∃ m : Int,
        validate_version_constraint w = some (w ++ ", <" ++ intStr m ++ ".0")) ∧
      validate_version_constraint w ≠ some w := by
  intro v w hvw hge
  rw [validate_bridge] at hvw
  obtain ⟨lw, hlw, rfl⟩ : ∃ lw, validateL v.data = some lw ∧ w = String.mk lw := by
    rcases h : validateL v.data with _ | lw
    · rw [h] at hvw; cases hvw
    · rw [h] at hvw
      exact ⟨lw, rfl, (Option.some.inj hvw).symm⟩
  have hge' : isPre ['>', '='] lw = true := hge
  obtain ⟨m, hm⟩ := validateL_renormalize hlw hge'
  have heq : validate_version_constraint (String.mk lw) =
      some (String.mk lw ++ ", <" ++ intStr m ++ ".0") := by
    rw [validate_bridge, data_mk, hm]
    show some _ = some _
    congr 1
  refine ⟨⟨m, heq⟩, ?_⟩
  intro hcontra
  rw [heq] at hcontra
  exact append_upper_ne (Option.some.inj hcontra)

/-- Witness for C2 (amended), at the normalized output of `^1.2`. -/
theorem renormalization_appends_second_upper_bound_witness :
    (∃ m : Int, validate_version_constraint ">=1.2.0, <2.0" =
        some (">=1.2.0, <2.0" ++ ", <" ++ intStr m ++ ".0")) ∧
    validate_version_constraint ">=1.2.0, <2.0" ≠ some ">=1.2.0, <2.0" :=
  renormalization_appends_second_upper_bound "^1.2" ">=1.2.0, <2.0"
    (by decide) (by decide)

/-- C3 counterexample: the constraint `bad` has a non-numeric leading
component, yet `validate_version_constraint` returns `some "bad.0"`
rather than `none` (the int parse only runs behind a `>=` prefix), and
the pair is not recorded as invalid. -/
theorem nonnumeric_leading_counterexample :
    pyIntL (replaceAll ['>', '='] [] (splitHead ['.'] ("bad" : String).data)) = none ∧
    validate_version_constraint "bad" = some "bad.0" ∧
    validate_version_constraint "bad" ≠ none ∧
    validate_version_constraints ⟨["x bad"], []⟩ = [] := by
  exact ⟨by decide, by decide, by decide, by decide⟩

/-- C3 amended: for every constraint whose normalized form starts with
`>=` and whose leading dot component does not parse as an integer,
`validate_version_constraint` returns `none` (the raised `ValueError` is
caught, not propagated), and `validate_version_constraints` records the
(name, raw-constraint) pair for any dependency carrying that constraint;
the analysis function itself is total on such inputs. -/
theorem ge_nonnumeric_leading_recorded :
    ∀ v : String,
      pyStartsWith (normalize_version_string v) ">=" = true →
      pyIntL (replaceAll ['>', '='] []
        (splitHead ['.'] (normalize_version_string v).data)) = none →
      validate_version_constraint v = none ∧
      ∀ (doc : TomlDeps) (d name : String),
        d ∈ get_project_deps doc ++ get_dev_deps doc →
        extract_dep_version d = (name, v) →
        (name, v) ∈ validate_version_constraints doc := by
  intro v h1 h2
  have hcond : pyStartsWith (normalize_version_string v) ">=" =
      isPre ['>', '='] (ensureL (stripL v.data)) := by
    show isPre (">=" : String).data (normalize_version_string v).data = _
    rw [normalize_data, data_ge]
  have hnone : validate_version_constraint v = none := by
    rw [validate_bridge]
    rw [hcond] at h1
    show ((if isPre ['>', '='] (ensureL (stripL v.data)) then
        addUpperL (ensureL (stripL v.data))
      else some (ensureL (stripL v.data))).map String.mk) = none
    rw [if_pos h1]
    unfold addUpperL
    rw [normalize_data] at h2
    rw [h2]
    rfl
  refine ⟨hnone, ?_⟩
  intro doc d name hd hext
  have hvne : v.data.isEmpty = false := by
    cases hvd : v.data with
    | cons a b => simp
    | nil =>
      have hv : v = "" := String.ext hvd
      rw [hv] at h1
      have : pyStartsWith (normalize_version_string "") ">=" = false := by decide
      rw [this] at h1
      cases h1
  unfold validate_version_constraints
  apply List.mem_filter.mpr
  refine ⟨List.mem_map.mpr ⟨d, hd, hext⟩, ?_⟩
  show is_invalid_version name v = true
  unfold is_invalid_version
  rw [hnone]
  simp [truthy, hvne]

/-- Witness for C3 (amended), at the documented example `>=bad`. -/
theorem ge_nonnumeric_leading_recorded_witness :
    validate_version_constraint ">=bad" = none ∧
    ("x", ">=bad") ∈ validate_version_constraints ⟨["x >=bad"], []⟩ := by
  have h := ge_nonnumeric_leading_recorded ">=bad" (by decide) (by decide)
  exact ⟨h.1, h.2 ⟨["x >=bad"], []⟩ "x >=bad" "x" (by decide) (by decide)⟩

end PoetryMigration

namespace PoetryMigration

/-! ## Module-conflict lemmas -/

theorem dictGet_insert (m : List (String × String)) (k v s : String) :
    dictGet (dictInsert m k v) s = if k == s then some v else dictGet m s := by
  by_cases h : (k == s) = true
  · simp [dictGet, dictInsert, List.find?, h]
  · simp only [Bool.not_eq_true] at h
    simp [dictGet, dictInsert, List.find?, h]

theorem findOpt_append {α : Type} (p : α → Bool) :
    ∀ (l₁ l₂ : List α), (l₁ ++ l₂).find? p =
      match l₁.find? p with
      | some x => some x
      | none => l₂.find? p := by
  intro l₁ l₂
  induction l₁ with
  | nil => simp
  | cons a l ih =>
    by_cases h : p a = true
    · simp [List.find?, h]
    · simp only [Bool.not_eq_true] at h
      simp [List.find?, h, ih]

theorem lastStemMatch_nil (s : String) : lastStemMatch [] s = none := rfl

theorem lastStemMatch_cons (p : PyFile) (rest : List PyFile) (s : String) :
    lastStemMatch (p :: rest) s =
      match lastStemMatch rest s with
      | some r => some r
      | none => if p.stem == s then some p.str else none := by
  unfold lastStemMatch
  rw [List.reverse_cons, findOpt_append]
  rcases h : rest.reverse.find? (fun q => q.stem == s) with _ | q
  · rw [h]
    cases hb : (p.stem == s) <;> simp [List.find?, hb]
  · rw [h]
    rfl

theorem dictGet_foldl_ins :
    ∀ (files : List PyFile) (m : List (String × String)) (s : String),
      dictGet (files.foldl (fun m p => dictInsert m p.stem p.str) m) s =
        match lastStemMatch files s with
        | some r => some r
        | none => dictGet m s := by
  intro files
  induction files with
  | nil => intro m s; rfl
  | cons p rest ih =>
    intro m s
    rw [List.foldl_cons, ih, dictGet_insert, lastStemMatch_cons]
    rcases lastStemMatch rest s with _ | r
    · by_cases hs : (p.stem == s) = true
      · simp [hs]
      · simp only [Bool.not_eq_true] at hs
        simp [hs]
    · simp

theorem dictGet_build (files : List PyFile) (s : String) :
    dictGet (build_module_map files) s =
      match lastStemMatch files s with
      | some r => some r
      | none => none := by
  unfold build_module_map
  rw [dictGet_foldl_ins]
  rcases lastStemMatch files s with _ | r <;> rfl

theorem lastStemMatch_mem {files : List PyFile} {s r : String}
    (h : lastStemMatch files s = some r) :
    ∃ q ∈ files, q.stem = s ∧ q.str = r := by
  unfold lastStemMatch at h
  rcases hf : files.reverse.find? (fun q => q.stem == s) with _ | q
  · rw [hf] at h; cases h
  · rw [hf] at h
    have hmem : q ∈ files := List.mem_reverse.mp (List.mem_of_find?_eq_some hf)
    have hstem := List.find?_some hf
    simp only [beq_iff_eq] at hstem
    exact ⟨q, hmem, hstem, Option.some.inj h⟩

theorem lastStemMatch_isSome {files : List PyFile} {s : String}
    (h : files.any (fun q => q.stem == s) = true) :
    ∃ r, lastStemMatch files s = some r := by
  obtain ⟨q, hq, hs⟩ := List.any_eq_true.mp h
  have : ∃ x, files.reverse.find? (fun q => q.stem == s) = some x := by
    rw [← Option.isSome_iff_exists]
    rw [List.find?_isSome]
    exact ⟨q, List.mem_reverse.mpr hq, hs⟩
  obtain ⟨x, hx⟩ := this
  exact ⟨x.str, by unfold lastStemMatch; rw [hx]; rfl⟩

theorem find_conflicts_build (files : List PyFile)
    (hnodup : (files.map (fun p => p.str)).Nodup) :
    find_conflicts files (build_module_map files) =
      earlier_occurrence_conflicts files := by
  induction files with
  | nil => rfl
  | cons p rest ih =>
    rw [List.map_cons, List.nodup_cons] at hnodup
    obtain ⟨hpstr, hrest⟩ := hnodup
    unfold find_conflicts
    rw [List.filter_cons]
    have htail : rest.filter
        (fun q => !(dictGet (build_module_map (p :: rest)) q.stem == some q.str)) =
        rest.filter
          (fun q => !(dictGet (build_module_map rest) q.stem == some q.str)) := by
      apply List.filter_congr
      intro q hq
      have hqany : rest.any (fun x => x.stem == q.stem) = true :=
        List.any_eq_true.mpr ⟨q, hq, by simp⟩
      obtain ⟨r, hr⟩ := lastStemMatch_isSome hqany
      have h1 : dictGet (build_module_map (p :: rest)) q.stem = some r := by
        rw [dictGet_build, lastStemMatch_cons, hr]
      have h2 : dictGet (build_module_map rest) q.stem = some r := by
        rw [dictGet_build, hr]
      rw [h1, h2]
    by_cases hany : rest.any (fun q => q.stem == p.stem) = true
    · obtain ⟨r, hr⟩ := lastStemMatch_isSome hany
      have hget : dictGet (build_module_map (p :: rest)) p.stem = some r := by
        rw [dictGet_build, lastStemMatch_cons, hr]
      have hrne : r ≠ p.str := by
        obtain ⟨q, hq, _, hqr⟩ := lastStemMatch_mem hr
        intro hcontra
        exact hpstr (hcontra ▸ hqr ▸ List.mem_map.mpr ⟨q, hq, rfl⟩)
      have hcond : (!(dictGet (build_module_map (p :: rest)) p.stem == some p.str)) = true := by
        rw [hget]
        simp [hrne]
      rw [if_pos hcond, List.map_cons, htail]
      unfold earlier_occurrence_conflicts
      rw [if_pos hany]
      have := ih hrest
      unfold find_conflicts at this
      rw [this]
    · have hanyf : rest.any (fun q => q.stem == p.stem) = false := by
        cases h : rest.any (fun q => q.stem == p.stem)
        · rfl
        · exact absurd h hany
      have hlast : lastStemMatch rest p.stem = none := by
        rcases h : lastStemMatch rest p.stem with _ | r
        · rfl
        · obtain ⟨q, hq, hstem, _⟩ := lastStemMatch_mem h
          have : rest.any (fun x => x.stem == p.stem) = true :=
            List.any_eq_true.mpr ⟨q, hq, by simp [hstem]⟩
          rw [this] at hanyf; cases hanyf
      have hget : dictGet (build_module_map (p :: rest)) p.stem = some p.str := by
        rw [dictGet_build, lastStemMatch_cons, hlast]
        simp
      have hcond : (!(dictGet (build_module_map (p :: rest)) p.stem == some p.str)) = false := by
        rw [hget]
        simp
      rw [if_neg (by simp [hcond]), htail]
      unfold earlier_occurrence_conflicts
      rw [if_neg (by simp [hanyf])]
      have := ih hrest
      unfold find_conflicts at this
      rw [this]

theorem subsequent_cons (p : PyFile) (rest : List PyFile) (seen : List String) :
    subsequent_occurrence_conflicts (p :: rest) seen =
      if p.stem ∈ seen then
        (p.stem, p.str) :: subsequent_occurrence_conflicts rest seen
      else subsequent_occurrence_conflicts rest (p.stem :: seen) := rfl

theorem conflictsLoopV2_eq :
    ∀ (files : List PyFile) (acc : List (String × String))
      (modules : List (String × String)) (seen : List String),
      (∀ s, (dictGet modules s).isSome = true ↔ s ∈ seen) →
      conflictsLoopV2 files acc modules =
        acc ++ subsequent_occurrence_conflicts
          (files.filter (fun p => !(pyContains p.str ".venv"))) seen := by
  intro files
  induction files with
  | nil =>
    intro acc modules seen _
    simp [conflictsLoopV2, subsequent_occurrence_conflicts]
  | cons p rest ih =>
    intro acc modules seen hinv
    unfold conflictsLoopV2
    by_cases hv : pyContains p.str ".venv" = true
    · rw [if_pos hv, List.filter_cons, if_neg (by simp [hv])]
      exact ih acc modules seen hinv
    · have hv' : pyContains p.str ".venv" = false := by
        cases h : pyContains p.str ".venv"
        · rfl
        · exact absurd h hv
      have hkeep : (!pyContains p.str ".venv") = true := by rw [hv']; rfl
      rw [if_neg hv]
      by_cases hs : p.stem ∈ seen
      · rw [if_pos ((hinv p.stem).mpr hs),
          ih (acc ++ [(p.stem, p.str)]) modules seen hinv,
          List.filter_cons, if_pos hkeep, subsequent_cons, if_pos hs]
        simp
      · have hnone : (dictGet modules p.stem).isSome = false := by
          cases h : (dictGet modules p.stem).isSome
          · rfl
          · exact absurd ((hinv _).mp h) hs
        rw [if_neg (by simp [hnone]),
          ih acc (dictInsert modules p.stem p.str) (p.stem :: seen) ?_,
          List.filter_cons, if_pos hkeep]
        · rw [subsequent_cons, if_neg hs]
        · intro s
          rw [dictGet_insert]
          by_cases h : (p.stem == s) = true
          · simp [h, beq_iff_eq.mp h]
          · have h' : (p.stem == s) = false := by
              cases hb : (p.stem == s)
              · rfl
              · exact absurd hb h
            simp only [h', Bool.false_eq_true, if_false, List.mem_cons]
            rw [hinv s]
            constructor
            · exact fun hh => Or.inr hh
            · rintro (hh | hh)
              · exfalso
                rw [hh] at h'
                simp at h'
              · exact hh

end PoetryMigration

namespace PoetryMigration

/-- C4 counterexample: for two files sharing the stem `mod`, migrate_repo.py's
`check_module_conflicts` produces one entry naming the FIRST-encountered
file (`a/mod.py`), not the second as the claim states — the dict
comprehension in `build_module_map` makes the LAST occurrence canonical. -/
theorem module_conflict_counterexample :
    check_module_conflicts [⟨"mod", "a/mod.py"⟩, ⟨"mod", "b/mod.py"⟩] =
      [("mod", "a/mod.py")] ∧
    (("mod", "a/mod.py") : String × String) ≠ ("mod", "b/mod.py") :=
  ⟨by decide, by decide⟩

/-- C4 amended: in migrate_repo_v2.py the claim holds as stated — the first
occurrence of a base name is canonical and each subsequent occurrence
produces exactly one conflict entry naming that later file's path; in
migrate_repo.py the roles are reversed — with pairwise-distinct paths, the
LAST occurrence is canonical and each earlier occurrence produces one
entry naming that earlier file's path, so for exactly two files with the
same base name each version produces exactly one entry, naming the second
file in v2 and the first file in migrate_repo.py. -/
theorem module_conflict_characterization :
    (∀ allFiles : List PyFile,
      check_module_conflicts_v2 allFiles =
        subsequent_occurrence_conflicts (get_python_files allFiles) []) ∧
    (∀ allFiles : List PyFile,
      ((get_python_files allFiles).map (fun p => p.str)).Nodup →
      check_module_conflicts allFiles =
        earlier_occurrence_conflicts (get_python_files allFiles)) ∧
    check_module_conflicts_v2 [⟨"mod", "a/mod.py"⟩, ⟨"mod", "b/mod.py"⟩] =
      [("mod", "b/mod.py")] ∧
    check_module_conflicts [⟨"mod", "a/mod.py"⟩, ⟨"mod", "b/mod.py"⟩] =
      [("mod", "a/mod.py")] := by
  refine ⟨?_, ?_, by decide, by decide⟩
  · intro allFiles
    unfold check_module_conflicts_v2
    rw [conflictsLoopV2_eq allFiles [] [] []
      (fun s => by simp [dictGet, List.find?])]
    simp [get_python_files]
  · intro allFiles hnodup
    exact find_conflicts_build (get_python_files allFiles) hnodup

/-- Witness for C4 (amended): the two-file instance for migrate_repo.py's
version, with distinct paths. -/
theorem module_conflict_characterization_witness :
    check_module_conflicts [⟨"mod", "a/mod.py"⟩, ⟨"mod", "b/mod.py"⟩] =
      earlier_occurrence_conflicts
        (get_python_files [⟨"mod", "a/mod.py"⟩, ⟨"mod", "b/mod.py"⟩]) :=
  module_conflict_characterization.2.1 _ (by decide)

end PoetryMigration

namespace PoetryMigration

/-- C5 (code bug): for the repository test-suite's own input — a
version-control dependency with a revision AND extras — migrate_repo.py's
formatter emits the bare name, dropping the extras: the `@ref` preference
chain runs, but `format_git_dependency` never consults the table's extras,
so the output differs from the `name[extras] @ git+url@revision` the
claim (and the test suite) expects. -/
theorem git_dependency_drops_extras_bug :
    format_dependency (fun s => s) "mypackage"
        (.table { git := some "https://github.com/user/repo.git",
                  rev := some "main", extras := ["test"] }) =
      some ("mypackage @ git+https://github.com/user/repo.git@main", []) ∧
    ("mypackage @ git+https://github.com/user/repo.git@main" : String) ≠
      "mypackage[test] @ git+https://github.com/user/repo.git@main" :=
  ⟨by decide, by decide⟩

/-- C6 (code bug): for the repository test-suite's own input — a path
dependency with `develop = true` — migrate_repo.py produces the direct
file-reference string but emits NO advisory messages (its formatting
functions contain no print call), not the two (editable-conversion,
absolute-path) warnings the claim and the test suite expect. -/
theorem path_editable_no_warnings_bug :
    format_dependency (fun _ => "/abs/path/to/pkg") "localpackage"
        (.table { path := some "../pkg", develop := some true }) =
      some ("localpackage @ file:///abs/path/to/pkg", []) ∧
    ([] : List String).length ≠ 2 :=
  ⟨by decide, by decide⟩

/-- C7: the five tool-configuration rules own pairwise-disjoint key sets,
and the merged mypy / ruff configurations contain every triggered rule's
keys with that rule's values, regardless of which other rules fire. -/
theorem tool_config_rules_disjoint :
    (∀ a : RepoAnalysis,
      (a.has_async = true →
        cfgGet (build_mypy_config a) "strict_optional" = some (.b true) ∧
        cfgGet (build_mypy_config a) "warn_unused_awaits" = some (.b true)) ∧
      (a.has_type_annotations = true →
        cfgGet (build_mypy_config a) "strict" = some (.b true) ∧
        cfgGet (build_mypy_config a) "warn_return_any" = some (.b true)) ∧
      (a.module_conflicts ≠ [] →
        cfgGet (build_mypy_config a) "exclude" = some (.strs ["before/.*"])) ∧
      (a.has_long_lines = true →
        cfgGet (build_ruff_config a) "line-length" = some (.n 100)) ∧
      (has_before_directory_conflicts a.module_conflicts = true →
        cfgGet (build_ruff_config a) "exclude" = some (.strs ["before"]))) ∧
    (∀ k ∈ get_async_config_keys, k ∉ get_strict_config_keys ∧ k ≠ "exclude") ∧
    (∀ k ∈ get_strict_config_keys, k ≠ "exclude") ∧
    ("line-length" : String) ≠ "exclude" := by
  refine ⟨?_, by decide, by decide, by decide⟩
  intro a
  refine ⟨?_, ?_, ?_, ?_, ?_⟩
  · intro h
    simp only [build_mypy_config, h]
    cases ht : a.has_type_annotations <;> cases hm : a.module_conflicts.isEmpty <;>
      exact ⟨by decide, by decide⟩
  · intro h
    simp only [build_mypy_config, h]
    cases ha : a.has_async <;> cases hm : a.module_conflicts.isEmpty <;>
      exact ⟨by decide, by decide⟩
  · intro h
    have hm : a.module_conflicts.isEmpty = false := by
      cases hie : a.module_conflicts.isEmpty
      · rfl
      · exact absurd (List.isEmpty_iff.mp hie) h
    simp only [build_mypy_config, hm]
    cases ha : a.has_async <;> cases ht : a.has_type_annotations <;> decide
  · intro h
    simp only [build_ruff_config, h]
    cases hb : has_before_directory_conflicts a.module_conflicts <;> decide
  · intro h
    simp only [build_ruff_config, h]
    cases hl : a.has_long_lines <;> decide

/-- Witness for C7: an analysis triggering all five rules. -/
theorem tool_config_rules_disjoint_witness :
    cfgGet (build_mypy_config
        ⟨[], [], [("test", "before/test.py")], [], true, true, true, []⟩)
      "strict_optional" = some (.b true) ∧
    cfgGet (build_mypy_config
        ⟨[], [], [("test", "before/test.py")], [], true, true, true, []⟩)
      "strict" = some (.b true) ∧
    cfgGet (build_mypy_config
        ⟨[], [], [("test", "before/test.py")], [], true, true, true, []⟩)
      "exclude" = some (.strs ["before/.*"]) ∧
    cfgGet (build_ruff_config
        ⟨[], [], [("test", "before/test.py")], [], true, true, true, []⟩)
      "line-length" = some (.n 100) ∧
    cfgGet (build_ruff_config
        ⟨[], [], [("test", "before/test.py")], [], true, true, true, []⟩)
      "exclude" = some (.strs ["before"]) := by
  have h := tool_config_rules_disjoint.1
    ⟨[], [], [("test", "before/test.py")], [], true, true, true, []⟩
  exact ⟨(h.1 rfl).1, (h.2.1 rfl).1, h.2.2.1 (by decide), h.2.2.2.1 rfl,
    h.2.2.2.2 (by decide)⟩

end PoetryMigration

namespace PoetryMigration

/-- The Boolean order used by `pySorted` is transitive and total. -/
theorem strLe_trans (a b c : String) (h1 : decide (a ≤ b) = true)
    (h2 : decide (b ≤ c) = true) : decide (a ≤ c) = true :=
  decide_eq_true (le_trans (of_decide_eq_true h1) (of_decide_eq_true h2))

theorem strLe_total (a b : String) :
    (decide (a ≤ b) || decide (b ≤ a)) = true := by
  rcases le_total a b with h | h
  · rw [decide_eq_true h, Bool.true_or]
  · rw [decide_eq_true h, Bool.or_true]

theorem pySorted_perm (l : List String) : (pySorted l).Perm l :=
  List.mergeSort_perm l _

theorem pySorted_sorted (l : List String) :
    (pySorted l).Sorted (fun x y : String => x ≤ y) := by
  have h := @List.sorted_mergeSort String (fun a b : String => decide (a ≤ b))
    strLe_trans strLe_total l
  exact List.Pairwise.imp (fun hab => of_decide_eq_true hab) h

/-- C8: the assembled dev-dependency list is exactly (a sorted permutation
of) the reformatted legacy group declarations, plus one stub declaration
per missing-stub candidate whose stub name is not already present, plus
each of the four standard tooling declarations whose bare name is not
already present; the result is sorted by the full declaration string, and
contains every such declaration. -/
theorem dev_dependencies_assembly :
    ∀ (resolve : String → String) (pc : PoetryConfig) (a : RepoAnalysis)
      (existing : List String),
      extract_dev_dependencies resolve pc = some existing →
      ∃ out, build_dev_dependencies resolve pc a = some out ∧
        out.Perm (existing ++
          get_new_stubs a.missing_stubs (get_existing_dep_names existing) ++
          get_new_tools (get_existing_dep_names existing)) ∧
        out.Sorted (fun x y : String => x ≤ y) ∧
        (∀ d ∈ existing, d ∈ out) ∧
        (∀ s ∈ a.missing_stubs,
          extract_dep_name ("types-" ++ s ++ " >=2.0.0, <3.0") ∉
            get_existing_dep_names existing →
          ("types-" ++ s ++ " >=2.0.0, <3.0") ∈ out) ∧
        (∀ t ∈ build_standard_tool_deps,
          extract_dep_name t ∉ get_existing_dep_names existing → t ∈ out) := by
  intro resolve pc a existing hex
  have hbuild : build_dev_dependencies resolve pc a =
      some (pySorted (existing ++
        get_new_stubs a.missing_stubs (get_existing_dep_names existing) ++
        get_new_tools (get_existing_dep_names existing))) := by
    unfold build_dev_dependencies
    rw [hex]
    rfl
  refine ⟨_, hbuild, pySorted_perm _, pySorted_sorted _, ?_, ?_, ?_⟩
  · intro d hd
    exact (pySorted_perm _).mem_iff.mpr
      (List.mem_append.mpr (Or.inl (List.mem_append.mpr (Or.inl hd))))
  · intro s hs hnot
    refine (pySorted_perm _).mem_iff.mpr
      (List.mem_append.mpr (Or.inl (List.mem_append.mpr (Or.inr ?_))))
    unfold get_new_stubs filter_new_deps
    refine List.mem_filter.mpr ⟨?_, ?_⟩
    · exact List.mem_map.mpr ⟨s, hs, rfl⟩
    · have : (get_existing_dep_names existing).contains
          (extract_dep_name ("types-" ++ s ++ " >=2.0.0, <3.0")) = false := by
        simpa using hnot
      rw [this]
      rfl
  · intro t ht hnot
    refine (pySorted_perm _).mem_iff.mpr
      (List.mem_append.mpr (Or.inr ?_))
    unfold get_new_tools filter_new_deps
    refine List.mem_filter.mpr ⟨ht, ?_⟩
    have : (get_existing_dep_names existing).contains (extract_dep_name t) = false := by
      simpa using hnot
    rw [this]
    rfl

/-- Witness for C8: a configuration with no dev groups and no stub
candidates, where the assembly succeeds. -/
theorem dev_dependencies_assembly_witness :
    ∃ out, build_dev_dependencies (fun s => s) ⟨[]⟩
        ⟨[], [], [], [], false, false, false, []⟩ = some out ∧
      out.Perm (([] : List String) ++
        get_new_stubs ([] : List String) (get_existing_dep_names []) ++
        get_new_tools (get_existing_dep_names [])) ∧
      out.Sorted (fun x y : String => x ≤ y) ∧
      (∀ d ∈ ([] : List String), d ∈ out) ∧
      (∀ s ∈ ([] : List String),
        extract_dep_name ("types-" ++ s ++ " >=2.0.0, <3.0") ∉
          get_existing_dep_names [] →
        ("types-" ++ s ++ " >=2.0.0, <3.0") ∈ out) ∧
      (∀ t ∈ build_standard_tool_deps,
        extract_dep_name t ∉ get_existing_dep_names [] → t ∈ out) :=
  dev_dependencies_assembly (fun s => s) ⟨[]⟩
    ⟨[], [], [], [], false, false, false, []⟩ [] rfl

end PoetryMigration

namespace PoetryMigration

/-- C9: a run against an already-migrated manifest (target format present,
legacy Poetry block absent) reports success immediately, and its whole
trace is console output only — no file write, no removal, no external
command, no tracking-manifest update. -/
theorem already_migrated_short_circuits :
    ∀ (env : Env) (a : RepoAnalysis) (repo : String),
      env.repoExists = true →
      env.analysisResult = some a →
      is_already_migrated env.doc = true →
      ∃ tr, migrate_repo env repo = some (ExitCode.SUCCESS, tr) ∧
        tr.all (fun act => !act.isMutating) = true := by
  intro env a repo h1 h2 h3
  have hce : check_repo_exists env repo = (true, []) := by
    unfold check_repo_exists
    rw [h1]
    simp
  have hpa : perform_analysis env = (some a, print_analysis_results a) := by
    unfold perform_analysis
    rw [h2]
  have hcam : check_already_migrated env =
      (true, [.consolePrint "Repository is already migrated to UV"]) := by
    unfold check_already_migrated
    rw [h3]
    simp
  have hhac : handle_analysis_and_checks env (some a) =
      some (ExitCode.SUCCESS, [.consolePrint "Repository is already migrated to UV"]) := by
    simp only [handle_analysis_and_checks, hcam]
    simp
  have hmr : migrate_repo env repo = some (ExitCode.SUCCESS,
      ([] ++ [Action.consolePrint ("Migrating " ++ repo)] ++ print_analysis_results a) ++
      [Action.consolePrint "Repository is already migrated to UV"]) := by
    simp only [migrate_repo, hce, hpa, hhac]
    rfl
  exact ⟨_, hmr, by simp [print_analysis_results, Action.isMutating]⟩

/-- Witness for C9: a concrete already-migrated environment. -/
theorem already_migrated_short_circuits_witness :
    ∃ tr, migrate_repo
        ⟨true, ⟨false, false, true, true⟩,
         some ⟨[], [], [], [], false, false, false, [">=3.12"]⟩, [],
         fun _ => false, fun _ => false, fun _ => true, fun _ => true,
         fun _ => ""⟩ "repo" = some (ExitCode.SUCCESS, tr) ∧
      tr.all (fun act => !act.isMutating) = true :=
  already_migrated_short_circuits
    ⟨true, ⟨false, false, true, true⟩,
     some ⟨[], [], [], [], false, false, false, [">=3.12"]⟩, [],
     fun _ => false, fun _ => false, fun _ => true, fun _ => true,
     fun _ => ""⟩
    ⟨[], [], [], [], false, false, false, [">=3.12"]⟩ "repo" rfl rfl (by decide)

/-- C10: when every verification check command succeeds, the run reports
success and the trace contains the tracking-manifest update to status
"migrated" — with NO assumption on the exit status of the git add/commit
subprocesses, whose boolean results `commit_changes` discards. -/
theorem commit_failure_still_success :
    ∀ (env : Env) (a : RepoAnalysis) (repo ver : String),
      env.repoExists = true →
      env.analysisResult = some a →
      is_already_migrated env.doc = false →
      has_poetry_config env.doc = true →
      extract_python_version a = some ver →
      (∀ f, env.rmOk f = true) →
      (∀ cmd ∈ build_check_commands (find_python_files env), env.cmdOk cmd = true) →
      ∃ tr, migrate_repo env repo = some (ExitCode.SUCCESS, tr) ∧
        Action.updateManifest "migrated" (build_commit_notes a) ∈ tr := by
  intro env a repo ver h1 h2 h3 h4 hver hrm hcmds
  have hce : check_repo_exists env repo = (true, []) := by
    unfold check_repo_exists
    rw [h1]
    simp
  have hpa : perform_analysis env = (some a, print_analysis_results a) := by
    unfold perform_analysis
    rw [h2]
  have hcam : check_already_migrated env = (false, []) := by
    unfold check_already_migrated
    rw [h3]
    simp
  have hconv : convert_pyproject env = (true, [.writeFile "pyproject.toml"]) := by
    unfold convert_pyproject
    rw [h4]
    simp
  have hrp : ∀ p, ∃ l, remove_path env p = some l := by
    intro p
    unfold remove_path
    by_cases h : env.isFile p = true
    · exact ⟨_, by rw [if_pos h]⟩
    · exact ⟨_, by rw [if_neg h, if_pos (hrm p)]⟩
  obtain ⟨l1, hl1⟩ := hrp "poetry.lock"
  obtain ⟨l2, hl2⟩ := hrp ".venv"
  have hclean : ∃ ctr, clean_old_files env = some ctr := by
    unfold clean_old_files
    by_cases he1 : env.fileExists "poetry.lock" = true <;>
      by_cases he2 : env.fileExists ".venv" = true <;>
      simp [he1, he2, hl1, hl2]
  obtain ⟨ctr, hclean⟩ := hclean
  have hperf : perform_migration env a = some (true,
      [Action.writeFile "pyproject.toml"] ++ [Action.writeFile ".python-version"] ++ ctr) := by
    unfold perform_migration
    rw [hconv]
    simp [hver, hclean]
  have hexec : ∀ cmds : List (List String),
      (∀ cmd ∈ cmds, env.cmdOk cmd = true) →
      execute_check_commands env cmds = ((true, ""), cmds.map Action.runCmd) := by
    intro cmds
    induction cmds with
    | nil => intro _; rfl
    | cons c rest ih =>
      intro h
      unfold execute_check_commands runCmdEnv
      rw [h c (List.mem_cons_self _ _)]
      simp [ih (fun cmd hm => h cmd (List.mem_cons_of_mem _ hm))]
  have hrc : run_checks env (find_python_files env) =
      ((true, ""), (build_check_commands (find_python_files env)).map Action.runCmd) := by
    unfold run_checks
    exact hexec _ hcmds
  have hmem : Action.updateManifest "migrated" (build_commit_notes a) ∈
      commit_changes env a := by
    unfold commit_changes
    simp [List.mem_append]
  have hrun : run_migration_and_checks env a = some (ExitCode.SUCCESS,
      ([Action.writeFile "pyproject.toml"] ++ [Action.writeFile ".python-version"] ++ ctr) ++
      ((build_check_commands (find_python_files env)).map Action.runCmd) ++
      (commit_changes env a ++ [Action.consolePrint "Migration successful"])) := by
    unfold run_migration_and_checks handle_migration_success
    rw [hperf]
    simp [hrc]
  have hhac : handle_analysis_and_checks env (some a) = some (ExitCode.SUCCESS,
      [] ++ (([Action.writeFile "pyproject.toml"] ++ [Action.writeFile ".python-version"] ++ ctr) ++
      ((build_check_commands (find_python_files env)).map Action.runCmd) ++
      (commit_changes env a ++ [Action.consolePrint "Migration successful"]))) := by
    simp only [handle_analysis_and_checks, hcam]
    simp [hrun]
  have hmr : migrate_repo env repo = some (ExitCode.SUCCESS,
      ([] ++ [Action.consolePrint ("Migrating " ++ repo)] ++ print_analysis_results a) ++
      ([] ++ (([Action.writeFile "pyproject.toml"] ++ [Action.writeFile ".python-version"] ++ ctr) ++
      ((build_check_commands (find_python_files env)).map Action.runCmd) ++
      (commit_changes env a ++ [Action.consolePrint "Migration successful"])))) := by
    simp only [migrate_repo, hce, hpa, hhac]
    rfl
  exact ⟨_, hmr, by simp [hmem]⟩

/-- Witness for C10: a poetry-configured repository whose uv check
commands succeed but whose git commands all fail. -/
theorem commit_failure_still_success_witness :
    ∃ tr, migrate_repo
        ⟨true, ⟨true, true, false, false⟩,
         some ⟨[], [], [], [], false, false, false, [">=3.12"]⟩, [],
         fun _ => false, fun _ => false, fun _ => true,
         fun cmd => !(cmd.headD "" == "git"), fun _ => "boom"⟩ "repo" =
      some (ExitCode.SUCCESS, tr) ∧
      Action.updateManifest "migrated"
        (build_commit_notes ⟨[], [], [], [], false, false, false, [">=3.12"]⟩) ∈ tr :=
  commit_failure_still_success
    ⟨true, ⟨true, true, false, false⟩,
     some ⟨[], [], [], [], false, false, false, [">=3.12"]⟩, [],
     fun _ => false, fun _ => false, fun _ => true,
     fun cmd => !(cmd.headD "" == "git"), fun _ => "boom"⟩
    ⟨[], [], [], [], false, false, false, [">=3.12"]⟩ "repo" "3.12"
    rfl rfl (by decide) (by decide) (by decide) (fun _ => rfl) (by decide)

end PoetryMigration
